import Mathlib

/-!
Verification of the WikiDict external sort/merge/index/publish engine.

Shallow embedding of the two build scripts:
* `scripts/build_wikidict_full.py` — chunked external sort (`split_and_sort_chunks`,
  `write_sorted_chunk`), k-way heap merge (`merge_sorted_chunks`), byte-range index
  (`create_index`), upload and manifest creation.
* `scripts/build_wikidict.py` — incremental two-pointer merge with in-lockstep index
  (`update_wikidict`), upload/verify (`upload_file_to_s3`), manifest rewrite
  (`update_manifest_in_s3`), dispatch (`main`, `build_updated_wikidict`).

Modelling conventions:
* A CSV record is a `Row` = (title, value) pair of strings.
* Python `str.lower()` is modelled by `caseFold` (per-character lowering).
* Python string comparison (code-point lexicographic) is modelled by the structural
  comparison `charsLt` on the character lists, so that every definition evaluates
  inside the kernel.
* File contents are modelled as `List Char`; offsets and lengths are counted in
  characters, matching the byte offsets the scripts compute for their data
  (`output_file.tell()` deltas around each `writer.writerow`).
* The S3 object store is a partial map from keys to contents; `head_object`
  verification outcomes are environment parameters, since a check on a remote store
  can fail independently of the local state.
-/

/-- A CSV record: `(title, value)`, as read/written by `csv.DictReader`/`DictWriter`
with fieldnames `['title', 'value']`. -/
abbrev Row := String × String

/-- Models Python `str.lower()` applied to a key (per-character lowering). -/
def caseFold (s : String) : String := ⟨s.data.map Char.toLower⟩

/-- Code-point lexicographic `<` on character lists: the comparison Python uses for
`str < str`, written structurally so it computes in the kernel. -/
def charsLt : List Char → List Char → Bool
  | [], [] => false
  | [], _ :: _ => true
  | _ :: _, [] => false
  | a :: as, b :: bs => if a < b then true else if b < a then false else charsLt as bs

/-- `a.lower() < b.lower()`: the comparison used by both merge loops. -/
def cfLt (a b : String) : Bool := charsLt (caseFold a).data (caseFold b).data

/-! ### Full build: chunk sort and k-way merge (`build_wikidict_full.py`) -/

/-- Sort key order used by `write_sorted_chunk`:
`data.sort(key=lambda row: row['title'].lower())`. -/
def chunkLe (a b : Row) : Prop := cfLt b.1 a.1 = false

instance : DecidableRel chunkLe := fun a b => by unfold chunkLe; infer_instance

/-- `write_sorted_chunk` (lines 352-363): sort the buffered rows by case-folded
title. Python's stable sort is modelled by insertion sort, which is extensionally
a sort by the same key order. -/
def writeSortedChunk (data : List Row) : List Row := List.insertionSort chunkLe data

/-- Chunking loop of `split_and_sort_chunks` (lines 318-349): accumulate rows and
flush once `chunk_size` is reached (so chunks have `max chunk_size 1` rows), with a
final partial chunk. Fuel = length of the remaining list. -/
def chunksOfAux : Nat → Nat → List Row → List (List Row)
  | 0, _, _ => []
  | _, _, [] => []
  | fuel + 1, n, l => l.take (max n 1) :: chunksOfAux fuel n (l.drop (max n 1))

/-- `split_and_sort_chunks`: split the input into chunks and sort each one. -/
def splitAndSortChunks (rows : List Row) (chunkSize : Nat) : List (List Row) :=
  (chunksOfAux rows.length chunkSize rows).map writeSortedChunk

/-- Heap entries of `merge_sorted_chunks`: `(sort_key, chunk_idx, row)`. -/
abbrev HeapEntry := String × Nat × Row

/-- The `heapq` ordering on `(sort_key, idx, row)` tuples: lexicographic; the row
component is never compared because chunk indices are distinct. -/
def heapLt (a b : HeapEntry) : Prop :=
  charsLt a.1.data b.1.data = true ∨ (a.1 = b.1 ∧ a.2.1 < b.2.1)

instance : DecidableRel heapLt := fun a b => by unfold heapLt; infer_instance

/-- The current heap contents: one entry `(title.lower(), idx, row)` per chunk that
still has an unconsumed head row. -/
def heads (st : List (Nat × List Row)) : List HeapEntry :=
  st.filterMap fun p =>
    match p.2 with
    | [] => none
    | r :: _ => some (caseFold r.1, p.1, r)

/-- `heapq.heappop` selection: the minimum entry under `heapLt` (unique, since
chunk indices are distinct). -/
def findMin : List HeapEntry → Option HeapEntry
  | [] => none
  | e :: rest =>
    match findMin rest with
    | none => some e
    | some m => if heapLt m e then some m else some e

/-- Consume the head row of chunk `i` (the popped chunk reads its next row). -/
def advance (st : List (Nat × List Row)) (i : Nat) : List (Nat × List Row) :=
  st.map fun p => if p.1 = i then (p.1, p.2.tail) else p

/-- Total number of unconsumed rows across all chunks. -/
def totalSize (st : List (Nat × List Row)) : Nat := (st.map fun p => p.2.length).sum

/-- The pop/emit/advance loop of `merge_sorted_chunks` (lines 390-404), with fuel
equal to the total number of rows. -/
def kMergeAux : Nat → List (Nat × List Row) → List Row
  | 0, _ => []
  | fuel + 1, st =>
    match findMin (heads st) with
    | none => []
    | some e => e.2.2 :: kMergeAux fuel (advance st e.2.1)

/-- `merge_sorted_chunks` (lines 366-411): k-way merge of the sequence-id-tagged
sorted chunks via a min-heap keyed by `(title.lower(), idx)`. -/
def mergeSortedChunks (chunks : List (List Row)) : List Row :=
  kMergeAux (totalSize chunks.enum) chunks.enum

/-- `sort_csv_external` (lines 270-315): phase 1 split-and-sort, phase 2 merge. -/
def sortCsvExternal (rows : List Row) (chunkSize : Nat) : List Row :=
  mergeSortedChunks (splitAndSortChunks rows chunkSize)

/-! ### CSV encoding (the on-disk row format written by `csv.DictWriter`) -/

/-- A field is quoted by `csv.writer` (QUOTE_MINIMAL) iff it contains the
delimiter, the quote char, or a line break. -/
def needsQuote (cs : List Char) : Bool :=
  cs.any fun c => c == ',' || c == '\"' || c == '\r' || c == '\n'

/-- Double every quote character (csv doublequote escaping). -/
def escapeQuotes : List Char → List Char
  | [] => []
  | c :: rest => if c = '\"' then '\"' :: '\"' :: escapeQuotes rest else c :: escapeQuotes rest

/-- One encoded CSV field under QUOTE_MINIMAL. -/
def encodeField (cs : List Char) : List Char :=
  if needsQuote cs then '\"' :: (escapeQuotes cs ++ ['\"']) else cs

/-- One encoded CSV row: `title,value\r\n` (csv default lineterminator). -/
def encodeRow (r : Row) : List Char :=
  encodeField r.1.data ++ ',' :: (encodeField r.2.data ++ ['\r', '\n'])

/-- The header line `writeheader()` emits for fieldnames `['title', 'value']`. -/
def headerChars : List Char := ("title,value\r\n" : String).data

/-- The full table artifact: header followed by the encoded rows. -/
def tableChars (rows : List Row) : List Char := headerChars ++ (rows.map encodeRow).flatten

/-- The table artifact as a string (the object uploaded as `data.csv`). -/
def tableString (rows : List Row) : String := ⟨tableChars rows⟩

/-- Characters that terminate an unquoted CSV field. -/
def isPlainChar (c : Char) : Bool := !(c == ',' || c == '\r' || c == '\n')

/-- Parse the remainder of a quoted CSV field (after the opening quote):
doubled quotes are literal quotes, a single quote closes the field. -/
def parseQuoted : List Char → Option (List Char × List Char)
  | [] => none
  | c :: rest =>
    if c = '\"' then
      match rest with
      | [] => some ([], [])
      | c2 :: rest2 =>
        if c2 = '\"' then (parseQuoted rest2).map fun p => ('\"' :: p.1, p.2)
        else some ([], rest)
    else (parseQuoted rest).map fun p => (c :: p.1, p.2)

/-- Parse one CSV field: quoted if it starts with a quote, otherwise everything up
to the next delimiter or line break. -/
def parseField (cs : List Char) : Option (List Char × List Char) :=
  if cs.head? = some '\"' then parseQuoted cs.tail
  else some (cs.takeWhile isPlainChar, cs.dropWhile isPlainChar)

/-- Decode one encoded row span back into a record (the read direction of the
lookup contract: parse `title,value\r\n`). -/
def decodeRow (cs : List Char) : Option Row :=
  match parseField cs with
  | none => none
  | some (f1, rest1) =>
    match rest1 with
    | c :: rest2 =>
      if c = ',' then
        match parseField rest2 with
        | none => none
        | some (f2, rest3) =>
          if rest3 = ['\r', '\n'] then some (⟨f1⟩, ⟨f2⟩) else none
      else none
    | [] => none

/-- A ranged read: `length` characters starting at `offset`. -/
def rangedRead (l : List Char) (off len : Nat) : List Char := (l.drop off).take len

/-! ### Incremental build: `update_wikidict` (`build_wikidict.py` lines 186-338) -/

/-- The five running counters of `update_wikidict`. -/
structure Counters where
  existing : Nat
  changelog : Nat
  updated : Nat
  added : Nat
  total : Nat
deriving Repr, DecidableEq

/-- Counter update of the base-row branches: `existing_count += 1; total_count += 1`. -/
def bumpExisting (c : Counters) : Counters :=
  ⟨c.existing + 1, c.changelog, c.updated, c.added, c.total + 1⟩

/-- Counter update of the changelog-insertion branches:
`added_count += 1; total_count += 1; changelog_count += 1`. -/
def bumpAdded (c : Counters) : Counters :=
  ⟨c.existing, c.changelog + 1, c.updated, c.added + 1, c.total + 1⟩

/-- Counter update of the same-title branch: both pointers advance and
`updated_count += 1; total_count += 1`. -/
def bumpUpdated (c : Counters) : Counters :=
  ⟨c.existing + 1, c.changelog + 1, c.updated + 1, c.added, c.total + 1⟩

/-- The two-pointer merge loop of `update_wikidict` (lines 218-306), with fuel
equal to the number of unconsumed rows. Branches mirror the source:
base-only / changelog-only when one stream is exhausted; otherwise compare
`title.lower()` and emit base (`<`), changelog (`>`), or changelog with both
pointers advanced (`==`). -/
def updWAux : Nat → List Row → List Row → List Row × Counters
  | 0, _, _ => ([], ⟨0, 0, 0, 0, 0⟩)
  | _ + 1, [], [] => ([], ⟨0, 0, 0, 0, 0⟩)
  | fuel + 1, [], d :: ds =>
    let p := updWAux fuel [] ds
    (d :: p.1, bumpAdded p.2)
  | fuel + 1, b :: bs, [] =>
    let p := updWAux fuel bs []
    (b :: p.1, bumpExisting p.2)
  | fuel + 1, b :: bs, d :: ds =>
    if cfLt b.1 d.1 then
      let p := updWAux fuel bs (d :: ds)
      (b :: p.1, bumpExisting p.2)
    else if cfLt d.1 b.1 then
      let p := updWAux fuel (b :: bs) ds
      (d :: p.1, bumpAdded p.2)
    else
      let p := updWAux fuel bs ds
      (d :: p.1, bumpUpdated p.2)

/-- The merged output rows and final counters of `update_wikidict`. -/
def updateWikidictRows (base delta : List Row) : List Row × Counters :=
  updWAux (base.length + delta.length) base delta

/-- Encoded length of one row (`row_end - row_start` around `writer.writerow`). -/
def rowLen (r : Row) : Nat := (encodeRow r).length

/-- Python-dict assignment `index[key] = v`: replace in place if the key exists,
else append. -/
def upsert (k : String) (v : Nat × Nat) : List (String × Nat × Nat) → List (String × Nat × Nat)
  | [] => [(k, v)]
  | e :: rest => if e.1 = k then (k, v) :: rest else e :: upsert k v rest

/-- The index as built during the merge loop: for each written row, in order,
`index[title] = {offset, length}` with the running character offset. -/
def buildIndexAux : List Row → Nat → List (String × Nat × Nat) → List (String × Nat × Nat)
  | [], _, acc => acc
  | r :: rest, pos, acc => buildIndexAux rest (pos + rowLen r) (upsert r.1 (pos, rowLen r) acc)

/-- The index `update_wikidict` writes alongside the merged table (offsets start
after the header line). -/
def buildIndex (rows : List Row) : List (String × Nat × Nat) :=
  buildIndexAux rows headerChars.length []

/-- The index as a plain offset table (no dict collapsing): one entry per row, with
cumulative offsets. Reference shape used to reason about `buildIndex`. -/
def plainIndex : List Row → Nat → List (String × Nat × Nat)
  | [], _ => []
  | r :: rest, pos => (r.1, pos, rowLen r) :: plainIndex rest (pos + rowLen r)

/-- `update_wikidict` as a whole: merged rows, index, and counters. -/
def updateWikidict (base delta : List Row) : List Row × List (String × Nat × Nat) × Counters :=
  ((updateWikidictRows base delta).1, buildIndex (updateWikidictRows base delta).1,
   (updateWikidictRows base delta).2)

/-! ### Full-build index: `create_index` (`build_wikidict_full.py` lines 414-487) -/

/-- One `f.readline()`: the characters up to and including the first newline (or
up to EOF when no newline remains), paired with the remaining contents. -/
def takeLine : List Char → List Char × List Char
  | [] => ([], [])
  | c :: rest =>
    if c = '\n' then ([c], rest)
    else (c :: (takeLine rest).1, (takeLine rest).2)

/-- The `readline` loop: split the file into its lines. Fuel = character count
(every line consumes at least one character). -/
def splitLinesAux : Nat → List Char → List (List Char)
  | 0, _ => []
  | _, [] => []
  | fuel + 1, c :: cs =>
    (takeLine (c :: cs)).1 :: splitLinesAux fuel (takeLine (c :: cs)).2

/-- All lines of a file, in order; their concatenation is the file. -/
def splitLines (cs : List Char) : List (List Char) := splitLinesAux cs.length cs

/-- The indexing loop of `create_index` (lines 439-470): for every line after the
header, at running offset `row_start`, set `index[key] = {offset, length}` where
`key` is the title parsed from that single line (`csv.DictReader` over
`'title,value\n' + line`, modelled by `decodeRow`); a line that fails to parse is
skipped with a warning (`except: continue`). -/
def createIndexAux :
    List (List Char) → Nat → List (String × Nat × Nat) → List (String × Nat × Nat)
  | [], _, acc => acc
  | line :: rest, pos, acc =>
    match decodeRow line with
    | some r => createIndexAux rest (pos + line.length) (upsert r.1 (pos, line.length) acc)
    | none => createIndexAux rest (pos + line.length) acc

/-- `create_index` (lines 414-487): read the header line (offsets start after
it), then index every following line of the table artifact by its starting
offset and length. -/
def createIndex (file : List Char) : List (String × Nat × Nat) :=
  match splitLines file with
  | [] => []
  | header :: body => createIndexAux body header.length []

/-! ### Publish controller: S3 model (`build_wikidict.py` lines 52-128, 352-416) -/

/-- The durable object store: a map from object key to content. -/
def Store := String → Option String

/-- `put_object` / `upload_file`: write (or overwrite) an object. -/
def put (st : Store) (p v : String) : Store := fun q => if q = p then some v else st q

/-- A store with no objects. -/
def emptyStore : Store := fun _ => none

/-- The fixed manifest object key (`MANIFEST_FILE_NAME`). -/
def manifestKey : String := "manifest.json"

/-- The manifest fields the scripts read and write. The constant service-metadata
fields are omitted; an absent dict key is modelled as the empty string, which the
scripts' truthiness checks treat identically. -/
structure Manifest where
  file_path : String
  index_file_path : String
  changelog_file_path : String
  version : String
  last_updated_at : String
deriving Repr, DecidableEq

/-- The date-keyed upload target for the table artifact
(`"dict/" + datetime.now().strftime("%Y%m%d") + "/data.csv"`). -/
def s3DataPath (date : String) : String := "dict/" ++ date ++ "/data.csv"

/-- The date-keyed upload target for the index artifact. -/
def s3IndexPath (date : String) : String := "dict/" ++ date ++ "/index.json"

/-- The in-place manifest mutation of `upload_file_to_s3` (lines 114-118): set
`file_path`, `last_updated_at`, `version`, `index_file_path`. No other field is
touched. -/
def applyManifestUpdate (m : Manifest) (date now : String) : Manifest :=
  { m with file_path := s3DataPath date, last_updated_at := now, version := date,
           index_file_path := s3IndexPath date }

/-- `upload_file_to_s3` (lines 81-128): upload both artifacts, then verify both via
`head_object`; only if both verifications succeed is the manifest record mutated.
The verification outcomes are environment parameters. Returns the store after the
uploads and the mutated manifest (`none` if the call raised before mutating it). -/
def uploadFileToS3 (st : Store) (dataContent indexContent : String) (date now : String)
    (m : Manifest) (verifyData verifyIndex : Bool) : Store × Option Manifest :=
  let st1 := put st (s3DataPath date) dataContent
  let st2 := put st1 (s3IndexPath date) indexContent
  if verifyData && verifyIndex then (st2, some (applyManifestUpdate m date now))
  else (st2, none)

/-- An injective-ish rendering of the manifest record, standing in for
`json.dumps(manifest)`. -/
def encodeManifest (m : Manifest) : String :=
  m.file_path ++ "|" ++ m.index_file_path ++ "|" ++ m.changelog_file_path ++ "|" ++
    m.version ++ "|" ++ m.last_updated_at

/-- `update_manifest_in_s3` (lines 71-78): `put_object` of the serialized manifest
at the fixed manifest key. -/
def updateManifestInS3 (st : Store) (m : Manifest) : Store :=
  put st manifestKey (encodeManifest m)

/-- Rendering of one index entry, standing in for its JSON serialization. -/
def entryString (e : String × Nat × Nat) : String :=
  e.1 ++ ":" ++ Nat.repr e.2.1 ++ ":" ++ Nat.repr e.2.2 ++ ";"

/-- Rendering of the index artifact, standing in for `json.dump(index, ...)`. -/
def indexString (idx : List (String × Nat × Nat)) : String :=
  String.join (idx.map entryString)

/-- `build_updated_wikidict` (lines 352-393): validate the two required manifest
fields, merge (the downloaded base and changelog contents are parameters), upload
and verify, and only then rewrite the manifest object. Returns the final store, the
published manifest (if any), and whether the build succeeded. -/
def buildUpdatedWikidict (st : Store) (m : Manifest) (base delta : List Row)
    (date now : String) (verifyData verifyIndex : Bool) : Store × Option Manifest × Bool :=
  if m.file_path = "" then (st, none, false)
  else if m.changelog_file_path = "" then (st, none, false)
  else
    let rows := (updateWikidictRows base delta).1
    match uploadFileToS3 st (tableString rows) (indexString (buildIndex rows)) date now m
        verifyData verifyIndex with
    | (st2, none) => (st2, none, false)
    | (st2, some m2) => (updateManifestInS3 st2 m2, some m2, true)

/-- Python `str.strip()` (whitespace on both ends). -/
def pyStrip (s : String) : String :=
  ⟨((s.data.dropWhile Char.isWhitespace).reverse.dropWhile Char.isWhitespace).reverse⟩

/-- `main`'s guard (lines 400-406): manifest truthy, `file_path` present, non-empty
and not just whitespace. -/
def hasValidFilePath (m : Manifest) : Bool := !((pyStrip m.file_path) == "")

/-- How a run of `main` ends. -/
inductive RunOutcome
  /-- the `else` branch: `subprocess.run(build_wikidict_full.py)` -/
  | fullRebuild
  /-- the incremental build completed -/
  | incrementalOk
  /-- the incremental build raised; `main` does not catch, the process dies -/
  | fatal
deriving Repr, DecidableEq

/-- `main` (lines 397-416): incremental build iff the manifest has a valid
`file_path`, otherwise full rebuild. An exception from the incremental path is
not caught. -/
def mainRun (st : Store) (m : Manifest) (base delta : List Row) (date now : String)
    (verifyData verifyIndex : Bool) : RunOutcome :=
  if hasValidFilePath m then
    match buildUpdatedWikidict st m base delta date now verifyData verifyIndex with
    | (_, _, true) => .incrementalOk
    | (_, _, false) => .fatal
  else .fullRebuild

/-! ### Order lemmas for the lexicographic comparison -/

theorem charsLt_irrefl (l : List Char) : charsLt l l = false := by
  induction l with
  | nil => rfl
  | cons a as ih => simp [charsLt, lt_irrefl, ih]

theorem charsLt_trans {a : List Char} : ∀ {b c : List Char},
    charsLt a b = true → charsLt b c = true → charsLt a c = true := by
  induction a with
  | nil =>
    intro b c h1 h2
    cases b with
    | nil => simp [charsLt] at h1
    | cons b bs =>
      cases c with
      | nil => simp [charsLt] at h2
      | cons c cs => simp [charsLt]
  | cons a as ih =>
    intro b c h1 h2
    cases b with
    | nil => simp [charsLt] at h1
    | cons b bs =>
      cases c with
      | nil => simp [charsLt] at h2
      | cons c cs =>
        simp only [charsLt] at h1 h2 ⊢
        by_cases hab : a < b
        · by_cases hbc : b < c
          · simp [hab.trans hbc]
          · by_cases hcb : c < b
            · simp [hbc, hcb] at h2
            · have hbceq : b = c := le_antisymm (not_lt.mp hcb) (not_lt.mp hbc)
              subst hbceq; simp [hab]
        · by_cases hba : b < a
          · simp [hab, hba] at h1
          · have habeq : a = b := le_antisymm (not_lt.mp hba) (not_lt.mp hab)
            subst habeq
            simp only [lt_irrefl, if_false, if_neg] at h1
            by_cases hbc : a < c
            · simp [hbc]
            · by_cases hcb : c < a
              · simp [hbc, hcb] at h2
              · have hbceq : a = c := le_antisymm (not_lt.mp hcb) (not_lt.mp hbc)
                subst hbceq
                simp only [lt_irrefl, if_false, if_neg] at h2 ⊢
                exact ih h1 h2

theorem charsLt_eq_of_false_false {a : List Char} : ∀ {b : List Char},
    charsLt a b = false → charsLt b a = false → a = b := by
  induction a with
  | nil =>
    intro b h1 _
    cases b with
    | nil => rfl
    | cons b bs => simp [charsLt] at h1
  | cons a as ih =>
    intro b h1 h2
    cases b with
    | nil => simp [charsLt] at h2
    | cons b bs =>
      simp only [charsLt] at h1 h2
      by_cases hab : a < b
      · simp [hab] at h1
      · by_cases hba : b < a
        · simp [hab, hba] at h2
        · have habeq : a = b := le_antisymm (not_lt.mp hba) (not_lt.mp hab)
          subst habeq
          simp only [lt_irrefl, if_false, if_neg] at h1 h2
          rw [ih h1 h2]

theorem charsLt_asymm {a b : List Char} (h : charsLt a b = true) : charsLt b a = false := by
  by_contra hc
  have h2 : charsLt b a = true := by
    cases hba : charsLt b a with
    | false => exact absurd hba hc
    | true => rfl
  have := charsLt_trans h h2
  rw [charsLt_irrefl] at this
  exact Bool.false_ne_true this

theorem charsLt_false_trans {a b c : List Char}
    (h1 : charsLt a b = false) (h2 : charsLt b c = false) : charsLt a c = false := by
  cases hac : charsLt a c with
  | false => rfl
  | true =>
    cases hba : charsLt b a with
    | true =>
      have : charsLt b c = true := charsLt_trans hba hac
      simp [h2] at this
    | false =>
      have hab : a = b := charsLt_eq_of_false_false h1 hba
      subst hab
      simp [hac] at h2

theorem cfLt_irrefl (s : String) : cfLt s s = false := charsLt_irrefl _

theorem cfLt_eq_of_false_false {a b : String} (h1 : cfLt a b = false) (h2 : cfLt b a = false) :
    caseFold a = caseFold b :=
  String.ext (charsLt_eq_of_false_false h1 h2)


/-! ### Fuel-independence and equations of the `update_wikidict` merge loop -/

theorem updWAux_fuel_eq : ∀ f g (b d : List Row), b.length + d.length ≤ f →
    b.length + d.length ≤ g → updWAux f b d = updWAux g b d := by
  intro f
  induction f with
  | zero =>
    intro g b d h _
    have hb : b = [] := by
      cases b with
      | nil => rfl
      | cons x xs => simp [List.length_cons] at h
    have hd : d = [] := by
      cases d with
      | nil => rfl
      | cons x xs => subst hb; simp [List.length_cons] at h
    subst hb; subst hd
    cases g with
    | zero => rfl
    | succ g => simp [updWAux]
  | succ f ih =>
    intro g b d h hg
    cases b with
    | nil =>
      cases d with
      | nil =>
        cases g with
        | zero => simp [updWAux]
        | succ g => simp [updWAux]
      | cons d ds =>
        cases g with
        | zero => simp [List.length_cons] at hg
        | succ g =>
          have h1 : ds.length ≤ f := by simp [List.length_cons] at h; omega
          have h2 : ds.length ≤ g := by simp [List.length_cons] at hg; omega
          simp only [updWAux]
          rw [ih g [] ds (by simpa using h1) (by simpa using h2)]
    | cons b bs =>
      cases d with
      | nil =>
        cases g with
        | zero => simp [List.length_cons] at hg
        | succ g =>
          have h1 : bs.length ≤ f := by simp [List.length_cons] at h; omega
          have h2 : bs.length ≤ g := by simp [List.length_cons] at hg; omega
          simp only [updWAux]
          rw [ih g bs [] (by simpa using h1) (by simpa using h2)]
      | cons d ds =>
        cases g with
        | zero => simp [List.length_cons] at hg
        | succ g =>
          have hf1 : bs.length + ds.length + 1 ≤ f := by simp [List.length_cons] at h; omega
          have hg1 : bs.length + ds.length + 1 ≤ g := by simp [List.length_cons] at hg; omega
          simp only [updWAux]
          by_cases hbd : cfLt b.1 d.1 = true
          · simp only [hbd, if_true]
            rw [ih g bs (d :: ds) (by simp [List.length_cons]; omega)
              (by simp [List.length_cons]; omega)]
          · have hbd' : cfLt b.1 d.1 = false := by
              cases hx : cfLt b.1 d.1 with
              | false => rfl
              | true => exact absurd hx hbd
            by_cases hdb : cfLt d.1 b.1 = true
            · simp only [hbd', hdb, Bool.false_eq_true, if_false, if_true]
              rw [ih g (b :: bs) ds (by simp [List.length_cons]; omega)
                (by simp [List.length_cons]; omega)]
            · have hdb' : cfLt d.1 b.1 = false := by
                cases hx : cfLt d.1 b.1 with
                | false => rfl
                | true => exact absurd hx hdb
              simp only [hbd', hdb', Bool.false_eq_true, if_false]
              rw [ih g bs ds (by omega) (by omega)]

theorem updWAux_nil_right : ∀ f (bs : List Row), bs.length ≤ f → (updWAux f bs []).1 = bs := by
  intro f
  induction f with
  | zero =>
    intro bs h
    cases bs with
    | nil => rfl
    | cons b bs => simp [List.length_cons] at h
  | succ f ih =>
    intro bs h
    cases bs with
    | nil => rfl
    | cons b bs =>
      simp only [updWAux]
      exact congrArg (b :: ·) (ih bs (by simp [List.length_cons] at h; omega))

theorem updWAux_nil_left : ∀ f (ds : List Row), ds.length ≤ f → (updWAux f [] ds).1 = ds := by
  intro f
  induction f with
  | zero =>
    intro ds h
    cases ds with
    | nil => rfl
    | cons d ds => simp [List.length_cons] at h
  | succ f ih =>
    intro ds h
    cases ds with
    | nil => rfl
    | cons d ds =>
      simp only [updWAux]
      exact congrArg (d :: ·) (ih ds (by simp [List.length_cons] at h; omega))

theorem updateWikidictRows_nil_right (bs : List Row) : (updateWikidictRows bs []).1 = bs :=
  updWAux_nil_right _ bs (by simp)

theorem updateWikidictRows_nil_left (ds : List Row) : (updateWikidictRows [] ds).1 = ds :=
  updWAux_nil_left _ ds (by simp)

theorem updateWikidictRows_lt {b d : Row} {bs ds : List Row} (h : cfLt b.1 d.1 = true) :
    updateWikidictRows (b :: bs) (d :: ds) =
      (b :: (updateWikidictRows bs (d :: ds)).1,
        bumpExisting (updateWikidictRows bs (d :: ds)).2) := by
  show updWAux ((bs.length + 1) + (ds.length + 1)) (b :: bs) (d :: ds) = _
  have hstep : (bs.length + 1) + (ds.length + 1) = (bs.length + (ds.length + 1)) + 1 := by omega
  rw [hstep]
  simp only [updWAux, h, if_true]
  rw [updWAux_fuel_eq (bs.length + (ds.length + 1)) (bs.length + (d :: ds).length) bs (d :: ds)
    (by simp) (by simp)]
  rfl

theorem updateWikidictRows_gt {b d : Row} {bs ds : List Row} (h1 : cfLt b.1 d.1 = false)
    (h2 : cfLt d.1 b.1 = true) :
    updateWikidictRows (b :: bs) (d :: ds) =
      (d :: (updateWikidictRows (b :: bs) ds).1,
        bumpAdded (updateWikidictRows (b :: bs) ds).2) := by
  show updWAux ((bs.length + 1) + (ds.length + 1)) (b :: bs) (d :: ds) = _
  have hstep : (bs.length + 1) + (ds.length + 1) = ((bs.length + 1) + ds.length) + 1 := by omega
  rw [hstep]
  simp only [updWAux, h1, h2, Bool.false_eq_true, if_false, if_true]
  rw [updWAux_fuel_eq ((bs.length + 1) + ds.length) ((b :: bs).length + ds.length) (b :: bs) ds
    (by simp) (by simp)]
  rfl

theorem updateWikidictRows_eq {b d : Row} {bs ds : List Row} (h1 : cfLt b.1 d.1 = false)
    (h2 : cfLt d.1 b.1 = false) :
    updateWikidictRows (b :: bs) (d :: ds) =
      (d :: (updateWikidictRows bs ds).1, bumpUpdated (updateWikidictRows bs ds).2) := by
  show updWAux ((bs.length + 1) + (ds.length + 1)) (b :: bs) (d :: ds) = _
  have hstep : (bs.length + 1) + (ds.length + 1) = ((bs.length + 1) + ds.length) + 1 := by omega
  rw [hstep]
  simp only [updWAux, h1, h2, Bool.false_eq_true, if_false]
  rw [updWAux_fuel_eq ((bs.length + 1) + ds.length) (bs.length + ds.length) bs ds
    (by omega) (by omega)]
  rfl

/-! ### Store-path lemmas -/

theorem s3DataPath_inj {d1 d2 : String} (h : s3DataPath d1 = s3DataPath d2) : d1 = d2 := by
  have h' := congrArg String.data h
  simp only [s3DataPath, String.data_append, List.append_assoc] at h'
  exact String.ext (List.append_cancel_right (List.append_cancel_left h'))

theorem s3IndexPath_inj {d1 d2 : String} (h : s3IndexPath d1 = s3IndexPath d2) : d1 = d2 := by
  have h' := congrArg String.data h
  simp only [s3IndexPath, String.data_append, List.append_assoc] at h'
  exact String.ext (List.append_cancel_right (List.append_cancel_left h'))

theorem s3DataPath_ne_manifestKey (d : String) : s3DataPath d ≠ manifestKey := by
  intro h
  have h2 := congrArg (fun s => s.data.head?) h
  have h3 : some 'd' = some 'm' := h2
  exact absurd (Option.some.inj h3) (by decide)

theorem s3IndexPath_ne_manifestKey (d : String) : s3IndexPath d ≠ manifestKey := by
  intro h
  have h2 := congrArg (fun s => s.data.head?) h
  have h3 : some 'd' = some 'm' := h2
  exact absurd (Option.some.inj h3) (by decide)

theorem s3DataPath_ne_s3IndexPath (d : String) : s3DataPath d ≠ s3IndexPath d := by
  intro h
  have h' := congrArg String.data h
  simp only [s3DataPath, s3IndexPath, String.data_append, List.append_assoc] at h'
  have h3 := List.append_cancel_left (List.append_cancel_left h')
  have : ("/data.csv" : String).data ≠ ("/index.json" : String).data := by decide
  exact this h3

theorem buildUpdatedWikidict_success_eq (st : Store) (m : Manifest) (base delta : List Row)
    (date now : String) (h1 : m.file_path ≠ "") (h2 : m.changelog_file_path ≠ "") :
    buildUpdatedWikidict st m base delta date now true true =
      (updateManifestInS3
          (put (put st (s3DataPath date) (tableString (updateWikidictRows base delta).1))
            (s3IndexPath date) (indexString (buildIndex (updateWikidictRows base delta).1)))
          (applyManifestUpdate m date now),
        some (applyManifestUpdate m date now), true) := by
  unfold buildUpdatedWikidict uploadFileToS3
  simp [h1, h2]

theorem buildUpdatedWikidict_verifyFail (st : Store) (m : Manifest) (base delta : List Row)
    (date now : String) (vD vI : Bool) (hv : (vD && vI) = false) :
    (buildUpdatedWikidict st m base delta date now vD vI).2.2 = false ∧
    (buildUpdatedWikidict st m base delta date now vD vI).1 manifestKey = st manifestKey := by
  unfold buildUpdatedWikidict uploadFileToS3
  by_cases h1 : m.file_path = ""
  · simp [h1]
  · by_cases h2 : m.changelog_file_path = ""
    · simp [h1, h2]
    · simp only [h1, h2, hv, if_false, Bool.false_eq_true, ite_false]
      refine ⟨by trivial, ?_⟩
      show put (put st (s3DataPath date) _) (s3IndexPath date) _ manifestKey = st manifestKey
      unfold put
      rw [if_neg fun hh => s3IndexPath_ne_manifestKey date hh.symm,
        if_neg fun hh => s3DataPath_ne_manifestKey date hh.symm]

theorem put_self (st : Store) (p v : String) : put st p v p = some v := by
  unfold put
  rw [if_pos rfl]

theorem updateManifestInS3_at_key (st : Store) (m : Manifest) :
    updateManifestInS3 st m manifestKey = some (encodeManifest m) :=
  put_self _ _ _

/-! ### Claim C2: publish atomicity on verification failure -/

/-- Claim C2: for every incremental refresh attempt in which the post-upload
verification step fails (`head_object` on either uploaded artifact raises), the
refresh aborts before `update_manifest_in_s3` is ever called, so the manifest
object in durable storage after the attempt is byte-identical to its content
before the attempt. -/
theorem c2_publish_atomicity (st : Store) (m : Manifest) (base delta : List Row)
    (date now : String) (vD vI : Bool) (hfail : vD = false ∨ vI = false) :
    (buildUpdatedWikidict st m base delta date now vD vI).2.2 = false ∧
    (buildUpdatedWikidict st m base delta date now vD vI).1 manifestKey = st manifestKey :=
  buildUpdatedWikidict_verifyFail st m base delta date now vD vI
    (by rcases hfail with h | h <;> simp [h])

/-- Witness for C2 at a concrete failing verification. -/
theorem c2_publish_atomicity_witness :
    (buildUpdatedWikidict emptyStore ⟨"dict/20250101/data.csv", "i", "cl", "v", "t"⟩
        [("a", "1")] [("b", "2")] "20250102" "t1" false true).2.2 = false ∧
    (buildUpdatedWikidict emptyStore ⟨"dict/20250101/data.csv", "i", "cl", "v", "t"⟩
        [("a", "1")] [("b", "2")] "20250102" "t1" false true).1 manifestKey =
      emptyStore manifestKey :=
  c2_publish_atomicity emptyStore ⟨"dict/20250101/data.csv", "i", "cl", "v", "t"⟩
    [("a", "1")] [("b", "2")] "20250102" "t1" false true (Or.inl rfl)

/-! ### Claim C4: the two-pointer merge of `update_wikidict` -/

/-- Claim C4: the two-pointer merge emits the base record and advances only the
base pointer when base-key < delta-key, emits the delta record and advances only
the delta pointer when base-key > delta-key, emits the delta record and advances
both pointers when the case-folded keys are equal, and after either stream is
exhausted emits the other stream's remainder unchanged; the scenario
base = [(apple,red),(banana,yellow)], delta = [(banana,green),(cherry,dark red)]
yields exactly [(apple,red),(banana,green),(cherry,dark red)]. -/
theorem c4_two_pointer_merge :
    (∀ (b d : Row) (bs ds : List Row), cfLt b.1 d.1 = true →
        (updateWikidictRows (b :: bs) (d :: ds)).1 = b :: (updateWikidictRows bs (d :: ds)).1) ∧
    (∀ (b d : Row) (bs ds : List Row), cfLt d.1 b.1 = true →
        (updateWikidictRows (b :: bs) (d :: ds)).1 = d :: (updateWikidictRows (b :: bs) ds).1) ∧
    (∀ (b d : Row) (bs ds : List Row), caseFold b.1 = caseFold d.1 →
        (updateWikidictRows (b :: bs) (d :: ds)).1 = d :: (updateWikidictRows bs ds).1) ∧
    (∀ bs : List Row, (updateWikidictRows bs []).1 = bs) ∧
    (∀ ds : List Row, (updateWikidictRows [] ds).1 = ds) ∧
    (updateWikidictRows [("apple", "red"), ("banana", "yellow")]
        [("banana", "green"), ("cherry", "dark red")]).1 =
      [("apple", "red"), ("banana", "green"), ("cherry", "dark red")] := by
  refine ⟨?_, ?_, ?_, updateWikidictRows_nil_right, updateWikidictRows_nil_left, by decide⟩
  · intro b d bs ds h
    rw [updateWikidictRows_lt h]
  · intro b d bs ds h
    rw [updateWikidictRows_gt (charsLt_asymm h) h]
  · intro b d bs ds h
    have h1 : cfLt b.1 d.1 = false := by
      show charsLt (caseFold b.1).data (caseFold d.1).data = false
      rw [h]; exact charsLt_irrefl _
    have h2 : cfLt d.1 b.1 = false := by
      show charsLt (caseFold d.1).data (caseFold b.1).data = false
      rw [h]; exact charsLt_irrefl _
    rw [updateWikidictRows_eq h1 h2]

/-- Witness for C4 instantiating each conditional branch concretely. -/
theorem c4_two_pointer_merge_witness :
    (updateWikidictRows [("apple", "red")] [("banana", "x")]).1 =
        ("apple", "red") :: (updateWikidictRows [] [("banana", "x")]).1 ∧
    (updateWikidictRows [("banana", "x")] [("apple", "red")]).1 =
        ("apple", "red") :: (updateWikidictRows [("banana", "x")] []).1 ∧
    (updateWikidictRows [("Apple", "a")] [("apple", "b")]).1 =
        ("apple", "b") :: (updateWikidictRows [] []).1 :=
  ⟨c4_two_pointer_merge.1 ("apple", "red") ("banana", "x") [] [] (by decide),
   c4_two_pointer_merge.2.1 ("banana", "x") ("apple", "red") [] [] (by decide),
   c4_two_pointer_merge.2.2.1 ("Apple", "a") ("apple", "b") [] [] (by decide)⟩

/-! ### Claim C5: index-cardinality mismatch handling -/

/-- Claim C5 counterexample: a run whose index-entry count (1) differs from its
written-row count (2), yet the build still succeeds and proceeds; the mismatch is
not fatal, refuting the claim that it aborts before any manifest mutation. -/
theorem c5_counterexample :
    (buildIndex (updateWikidictRows [("a", "1"), ("a", "2")] []).1).length = 1 ∧
    (updateWikidictRows [("a", "1"), ("a", "2")] []).2.total = 2 ∧
    (buildUpdatedWikidict emptyStore ⟨"dict/x/data.csv", "i", "cl", "v", "t"⟩
        [("a", "1"), ("a", "2")] [] "20250102" "t1" true true).2.2 = true := by decide

/-- Claim C5 amended: an index-cardinality mismatch at the end of the merge is
only logged as a warning; the build still proceeds to upload the artifacts and
rewrite the manifest (here: uploads verify, so the manifest object is rewritten
to the new generation despite the mismatch). -/
theorem c5_mismatch_only_warns (st : Store) (m : Manifest) (base delta : List Row)
    (date now : String) (h1 : m.file_path ≠ "") (h2 : m.changelog_file_path ≠ "")
    (hmis : (buildIndex (updateWikidictRows base delta).1).length ≠
      (updateWikidictRows base delta).2.total) :
    (buildUpdatedWikidict st m base delta date now true true).2.2 = true ∧
    (buildUpdatedWikidict st m base delta date now true true).1 manifestKey =
      some (encodeManifest (applyManifestUpdate m date now)) := by
  rw [buildUpdatedWikidict_success_eq st m base delta date now h1 h2]
  refine ⟨rfl, ?_⟩
  exact updateManifestInS3_at_key
    (put (put st (s3DataPath date) (tableString (updateWikidictRows base delta).1))
      (s3IndexPath date) (indexString (buildIndex (updateWikidictRows base delta).1)))
    (applyManifestUpdate m date now)

/-- Witness for the amended C5 at the concrete mismatching run. -/
theorem c5_mismatch_only_warns_witness :
    (buildUpdatedWikidict emptyStore ⟨"dict/x/data.csv", "i", "cl", "v", "t"⟩
        [("a", "1"), ("a", "2")] [] "20250102" "t1" true true).2.2 = true ∧
    (buildUpdatedWikidict emptyStore ⟨"dict/x/data.csv", "i", "cl", "v", "t"⟩
        [("a", "1"), ("a", "2")] [] "20250102" "t1" true true).1 manifestKey =
      some (encodeManifest (applyManifestUpdate ⟨"dict/x/data.csv", "i", "cl", "v", "t"⟩
        "20250102" "t1")) :=
  c5_mismatch_only_warns emptyStore ⟨"dict/x/data.csv", "i", "cl", "v", "t"⟩
    [("a", "1"), ("a", "2")] [] "20250102" "t1" (by decide) (by decide) (by decide)

/-! ### Claim C7: manifest validation and the bootstrap fallback -/

/-- Claim C7 counterexample: a manifest with a valid `file_path` but an empty
`changelog_file_path` makes the incremental attempt fail fatally, and the run does
not fall back to the full bootstrap build. -/
theorem c7_counterexample :
    mainRun emptyStore ⟨"dict/20250101/data.csv", "i", "", "v", "t"⟩ [] [] "20250102" "t1"
        true true = RunOutcome.fatal ∧
    RunOutcome.fatal ≠ RunOutcome.fullRebuild := by decide

/-- Claim C7 amended: the fallback to the full bootstrap build happens only when the
manifest's `file_path` is missing/blank, and that check is made before the
incremental build is attempted; when `file_path` is valid but the changelog path is
missing or empty, the incremental attempt raises and the run ends fatally with no
fallback. -/
theorem c7_dispatch (st : Store) (m : Manifest) (base delta : List Row)
    (date now : String) (vD vI : Bool) :
    (hasValidFilePath m = false → mainRun st m base delta date now vD vI = .fullRebuild) ∧
    (hasValidFilePath m = true → m.changelog_file_path = "" →
      mainRun st m base delta date now vD vI = .fatal) := by
  constructor
  · intro h
    unfold mainRun
    rw [h]
    simp
  · intro h hcl
    have hfp : m.file_path ≠ "" := by
      intro hh
      unfold hasValidFilePath at h
      rw [hh] at h
      exact absurd h (by decide)
    have hbuild : buildUpdatedWikidict st m base delta date now vD vI = (st, none, false) := by
      unfold buildUpdatedWikidict
      simp [hfp, hcl]
    unfold mainRun
    rw [h, hbuild]
    rfl

/-- Witness for C7 at concrete manifests for both branches. -/
theorem c7_dispatch_witness :
    mainRun emptyStore ⟨"  ", "i", "cl", "v", "t"⟩ [] [] "20250102" "t1" true true =
        RunOutcome.fullRebuild ∧
    mainRun emptyStore ⟨"dict/20250101/data.csv", "i", "", "v", "t"⟩ [] [] "20250102" "t1"
        true true = RunOutcome.fatal :=
  ⟨(c7_dispatch emptyStore ⟨"  ", "i", "cl", "v", "t"⟩ [] [] "20250102" "t1" true true).1
      (by decide),
   (c7_dispatch emptyStore ⟨"dict/20250101/data.csv", "i", "", "v", "t"⟩ [] [] "20250102" "t1"
      true true).2 (by decide) (by decide)⟩

/-! ### Claim C8: generation paths and overwrite behaviour -/

/-- Claim C8 counterexample: a build on the same date as the previously published
generation uploads to the very same path, overwriting the published table artifact
(the store previously held generation N's data there). -/
theorem c8_counterexample :
    (uploadFileToS3 (put emptyStore (s3DataPath "20250101") "generation N data")
        "generation N+1 data" "idx" "20250101" "t1"
        ⟨"dict/20250101/data.csv", "i", "cl", "v", "t"⟩ true true).1 (s3DataPath "20250101") =
      some "generation N+1 data" ∧
    put emptyStore (s3DataPath "20250101") "generation N data" (s3DataPath "20250101") =
      some "generation N data" ∧
    ("generation N+1 data" : String) ≠ "generation N data" := by decide

/-- Claim C8 amended: upload targets are the date-keyed paths
`dict/<date>/data.csv` and `dict/<date>/index.json`, so a build's artifact paths
are distinct from a previously published generation's paths whenever the build
dates differ; the upload writes (and thus overwrites) whatever the store holds at
its date path, so a same-date rebuild replaces the published artifacts in place. -/
theorem c8_date_keyed_paths (d1 d2 : String) (hne : d1 ≠ d2) :
    s3DataPath d1 ≠ s3DataPath d2 ∧ s3IndexPath d1 ≠ s3IndexPath d2 ∧
    ∀ (st : Store) (c i now : String) (mm : Manifest) (vD vI : Bool),
      (uploadFileToS3 st c i d1 now mm vD vI).1 (s3DataPath d1) = some c := by
  refine ⟨fun h => hne (s3DataPath_inj h), fun h => hne (s3IndexPath_inj h), ?_⟩
  intro st c i now mm vD vI
  have hput : put (put st (s3DataPath d1) c) (s3IndexPath d1) i (s3DataPath d1) = some c := by
    unfold put
    rw [if_neg (s3DataPath_ne_s3IndexPath d1), if_pos rfl]
  cases hvv : vD && vI with
  | true => simpa [uploadFileToS3, hvv] using hput
  | false => simpa [uploadFileToS3, hvv] using hput

/-- Witness for the amended C8 at concrete dates. -/
theorem c8_date_keyed_paths_witness :
    s3DataPath "20250101" ≠ s3DataPath "20250102" ∧
    (uploadFileToS3 emptyStore "c" "i" "20250101" "t"
        ⟨"dict/20250101/data.csv", "i", "cl", "v", "t"⟩ true true).1 (s3DataPath "20250101") =
      some "c" :=
  ⟨(c8_date_keyed_paths "20250101" "20250102" (by decide)).1,
   (c8_date_keyed_paths "20250101" "20250102" (by decide)).2.2 emptyStore "c" "i" "t"
      ⟨"dict/20250101/data.csv", "i", "cl", "v", "t"⟩ true true⟩

/-! ### Claim C9: the merge-updater's counters -/

/-- Claim C9 counterexample: on the scenario the code's only base-stream counter
(`existing_count`, rows consumed from the base file) ends at 2, not at the claimed
base-only value 1 — there is no stored records-sourced-from-base-only counter. -/
theorem c9_counterexample :
    (updateWikidictRows [("apple", "red"), ("banana", "yellow")]
        [("banana", "green"), ("cherry", "dark red")]).2.existing = 2 ∧ (2 : Nat) ≠ 1 := by
  decide

/-- Claim C9 amended: `update_wikidict` tracks five counters — rows consumed from
the base file, rows consumed from the changelog file, updated rows, added
(inserted) rows, and total rows written; on the scenario they end at
existing=2, changelog=2, updated=1, added=1, total=3 (so updated=1 and inserted=1
as claimed, while the base-only figure is only derivable as existing − updated). -/
theorem c9_counters :
    (updateWikidictRows [("apple", "red"), ("banana", "yellow")]
        [("banana", "green"), ("cherry", "dark red")]).2 = ⟨2, 2, 1, 1, 3⟩ ∧
    (updateWikidictRows [("apple", "red"), ("banana", "yellow")]
        [("banana", "green"), ("cherry", "dark red")]).2.existing -
      (updateWikidictRows [("apple", "red"), ("banana", "yellow")]
        [("banana", "green"), ("cherry", "dark red")]).2.updated = 1 := by decide

/-! ### Claim C10: the manifest after a successful refresh -/

/-- Claim C10 counterexample: after a successful incremental refresh, the published
manifest still carries the consumed changelog path — the delta/changelog field is
not cleared to the empty string. -/
theorem c10_counterexample :
    ((buildUpdatedWikidict emptyStore
        ⟨"dict/20250101/data.csv", "dict/20250101/index.json", "dict/changelog/cl.csv",
          "20250101", "t0"⟩
        [("a", "1")] [("b", "2")] "20250102" "t1" true true).2.1).map
      Manifest.changelog_file_path = some "dict/changelog/cl.csv" ∧
    ("dict/changelog/cl.csv" : String) ≠ "" := by decide

/-- Claim C10 amended: after a successful incremental refresh the published
manifest's `file_path`, `index_file_path`, `version` and `last_updated_at` all
reference the new generation, but `changelog_file_path` is left unchanged at its
previous value (it is not emptied). -/
theorem c10_manifest_after_refresh (st : Store) (m : Manifest) (base delta : List Row)
    (date now : String) (h1 : m.file_path ≠ "") (h2 : m.changelog_file_path ≠ "") :
    (buildUpdatedWikidict st m base delta date now true true).2.1 =
      some (applyManifestUpdate m date now) ∧
    (buildUpdatedWikidict st m base delta date now true true).1 manifestKey =
      some (encodeManifest (applyManifestUpdate m date now)) ∧
    (applyManifestUpdate m date now).file_path = s3DataPath date ∧
    (applyManifestUpdate m date now).index_file_path = s3IndexPath date ∧
    (applyManifestUpdate m date now).version = date ∧
    (applyManifestUpdate m date now).last_updated_at = now ∧
    (applyManifestUpdate m date now).changelog_file_path = m.changelog_file_path := by
  rw [buildUpdatedWikidict_success_eq st m base delta date now h1 h2]
  refine ⟨rfl, ?_, rfl, rfl, rfl, rfl, rfl⟩
  exact updateManifestInS3_at_key
    (put (put st (s3DataPath date) (tableString (updateWikidictRows base delta).1))
      (s3IndexPath date) (indexString (buildIndex (updateWikidictRows base delta).1)))
    (applyManifestUpdate m date now)

/-- Witness for the amended C10 at a concrete manifest. -/
theorem c10_manifest_after_refresh_witness :
    (buildUpdatedWikidict emptyStore
        ⟨"dict/20250101/data.csv", "dict/20250101/index.json", "dict/changelog/cl.csv",
          "20250101", "t0"⟩ [("a", "1")] [("b", "2")] "20250102" "t1" true true).2.1 =
      some (applyManifestUpdate
        ⟨"dict/20250101/data.csv", "dict/20250101/index.json", "dict/changelog/cl.csv",
          "20250101", "t0"⟩ "20250102" "t1") ∧
    (applyManifestUpdate
        ⟨"dict/20250101/data.csv", "dict/20250101/index.json", "dict/changelog/cl.csv",
          "20250101", "t0"⟩ "20250102" "t1").changelog_file_path = "dict/changelog/cl.csv" :=
  ⟨(c10_manifest_after_refresh emptyStore
      ⟨"dict/20250101/data.csv", "dict/20250101/index.json", "dict/changelog/cl.csv",
        "20250101", "t0"⟩ [("a", "1")] [("b", "2")] "20250102" "t1" (by decide) (by decide)).1,
   (c10_manifest_after_refresh emptyStore
      ⟨"dict/20250101/data.csv", "dict/20250101/index.json", "dict/changelog/cl.csv",
        "20250101", "t0"⟩ [("a", "1")] [("b", "2")] "20250102" "t1" (by decide)
      (by decide)).2.2.2.2.2.2⟩

/-! ### K-way merge: heap selection lemmas -/

theorem findMin_eq_none : ∀ {l : List HeapEntry}, findMin l = none → l = [] := by
  intro l h
  cases l with
  | nil => rfl
  | cons e rest =>
    cases hr : findMin rest with
    | none => simp [findMin, hr] at h
    | some m =>
      by_cases hlt : heapLt m e
      · simp [findMin, hr, hlt] at h
      · simp [findMin, hr, hlt] at h

theorem findMin_mem : ∀ {l : List HeapEntry} {m : HeapEntry}, findMin l = some m → m ∈ l := by
  intro l
  induction l with
  | nil => intro m h; exact absurd h (by simp [findMin])
  | cons e rest ih =>
    intro m h
    cases hr : findMin rest with
    | none =>
      simp only [findMin, hr, Option.some.injEq] at h
      exact List.mem_cons.mpr (Or.inl h.symm)
    | some m' =>
      by_cases hlt : heapLt m' e
      · simp only [findMin, hr, hlt, if_true, Option.some.injEq] at h
        exact List.mem_cons_of_mem e (h ▸ ih hr)
      · simp only [findMin, hr, hlt, if_false, Option.some.injEq] at h
        exact List.mem_cons.mpr (Or.inl h.symm)

theorem findMin_min : ∀ {l : List HeapEntry} {m : HeapEntry}, findMin l = some m →
    ∀ e ∈ l, charsLt e.1.data m.1.data = false := by
  intro l
  induction l with
  | nil => intro m h; exact absurd h (by simp [findMin])
  | cons e rest ih =>
    intro m h x hx
    cases hr : findMin rest with
    | none =>
      have hrest := findMin_eq_none hr
      subst hrest
      simp only [findMin, Option.some.injEq] at h
      subst h
      rcases List.mem_singleton.mp hx with rfl
      exact charsLt_irrefl _
    | some m' =>
      by_cases hlt : heapLt m' e
      · simp only [findMin, hr, hlt, if_true, Option.some.injEq] at h
        subst h
        rcases List.mem_cons.mp hx with rfl | hx'
        · rcases hlt with hlt | ⟨heq, _⟩
          · exact charsLt_asymm hlt
          · rw [heq]; exact charsLt_irrefl _
        · exact ih hr x hx'
      · simp only [findMin, hr, hlt, if_false, Option.some.injEq] at h
        rcases List.mem_cons.mp hx with rfl | hx'
        · rw [← h]; exact charsLt_irrefl _
        · have hxm' : charsLt x.1.data m'.1.data = false := ih hr x hx'
          have hm'e : charsLt m'.1.data e.1.data = false := by
            cases hc : charsLt m'.1.data e.1.data with
            | false => rfl
            | true => exact absurd (Or.inl hc) hlt
          rw [← h]
          exact charsLt_false_trans hxm' hm'e

theorem mem_heads {st : List (Nat × List Row)} {k : String} {i : Nat} {r : Row}
    (h : (k, i, r) ∈ heads st) : ∃ t, (i, r :: t) ∈ st ∧ k = caseFold r.1 := by
  unfold heads at h
  rcases List.mem_filterMap.mp h with ⟨⟨pi, pl⟩, hp, hf⟩
  cases pl with
  | nil => exact absurd hf (by simp)
  | cons r' t =>
    simp only [Option.some.injEq, Prod.mk.injEq] at hf
    obtain ⟨hk, hi, hr⟩ := hf
    subst hi
    subst hr
    exact ⟨t, hp, hk.symm⟩

theorem heads_mem_intro {st : List (Nat × List Row)} {i : Nat} {r : Row} {t : List Row}
    (h : (i, r :: t) ∈ st) : (caseFold r.1, i, r) ∈ heads st := by
  unfold heads
  exact List.mem_filterMap.mpr ⟨(i, r :: t), h, rfl⟩

theorem heads_eq_nil {st : List (Nat × List Row)} (h : heads st = []) :
    ∀ p ∈ st, p.2 = [] := by
  intro p hp
  unfold heads at h
  have := List.filterMap_eq_nil_iff.mp h p hp
  cases hl : p.2 with
  | nil => rfl
  | cons r t => rw [hl] at this; exact absurd this (by simp)

theorem totalSize_eq_zero {st : List (Nat × List Row)} (h : ∀ p ∈ st, p.2 = []) :
    totalSize st = 0 := by
  unfold totalSize
  rw [List.sum_eq_zero]
  intro x hx
  rcases List.mem_map.mp hx with ⟨p, hp, rfl⟩
  rw [h p hp]
  rfl

/-! ### K-way merge: advance and state decomposition -/

theorem advance_map_fst (st : List (Nat × List Row)) (i : Nat) :
    (advance st i).map Prod.fst = st.map Prod.fst := by
  unfold advance
  rw [List.map_map]
  apply List.map_congr_left
  intro p _
  by_cases h : p.1 = i <;> simp [h]

theorem map_advance_id {l : List (Nat × List Row)} {i : Nat} (h : i ∉ l.map Prod.fst) :
    l.map (fun p => if p.1 = i then (p.1, p.2.tail) else p) = l := by
  induction l with
  | nil => rfl
  | cons p ps ih =>
    simp only [List.map_cons, List.mem_cons, not_or] at h ⊢
    obtain ⟨h1, h2⟩ := h
    rw [if_neg fun hh => h1 hh.symm, ih h2]

theorem advance_decomp {pre post : List (Nat × List Row)} {i : Nat} {l : List Row}
    (hpre : i ∉ pre.map Prod.fst) (hpost : i ∉ post.map Prod.fst) :
    advance (pre ++ (i, l) :: post) i = pre ++ (i, l.tail) :: post := by
  unfold advance
  rw [List.map_append, List.map_cons, map_advance_id hpre, map_advance_id hpost, if_pos rfl]

theorem totalSize_decomp (pre post : List (Nat × List Row)) (i : Nat) (l : List Row) :
    totalSize (pre ++ (i, l) :: post) = totalSize pre + l.length + totalSize post := by
  unfold totalSize
  simp [List.sum_append]
  omega

theorem flatten_decomp_perm (pre post : List (Nat × List Row)) (i : Nat) (r : Row)
    (t : List Row) :
    List.Perm ((pre ++ (i, r :: t) :: post).map Prod.snd).flatten
      (r :: ((pre ++ (i, t) :: post).map Prod.snd).flatten) := by
  rw [List.map_append, List.map_cons, List.flatten_append, List.flatten_cons,
    List.map_append, List.map_cons, List.flatten_append, List.flatten_cons]
  have h1 : (pre.map Prod.snd).flatten ++ ((r :: t) ++ (post.map Prod.snd).flatten)
      = (pre.map Prod.snd).flatten ++ (r :: (t ++ (post.map Prod.snd).flatten)) := by simp
  rw [h1]
  exact List.perm_middle

theorem nodup_decomp {pre post : List (Nat × List Row)} {i : Nat} {l : List Row}
    (h : ((pre ++ (i, l) :: post).map Prod.fst).Nodup) :
    i ∉ pre.map Prod.fst ∧ i ∉ post.map Prod.fst := by
  rw [List.map_append, List.map_cons] at h
  rcases List.nodup_append.mp h with ⟨_, hnd2, hdisj⟩
  refine ⟨fun hin => hdisj hin (List.mem_cons_self _ _), ?_⟩
  exact (List.nodup_cons.mp hnd2).1

/-- Every popped head corresponds to an actual chunk decomposition of the state. -/
theorem findMin_decomp {st : List (Nat × List Row)} {e : HeapEntry}
    (h : findMin (heads st) = some e) :
    ∃ pre post t, st = pre ++ (e.2.1, e.2.2 :: t) :: post ∧ e.1 = caseFold e.2.2.1 := by
  rcases e with ⟨k, i, r⟩
  rcases mem_heads (findMin_mem h) with ⟨t, hmem, hk⟩
  rcases List.append_of_mem hmem with ⟨pre, post, hst⟩
  exact ⟨pre, post, t, hst, hk⟩

theorem advance_decomp_cons {pre post : List (Nat × List Row)} {i : Nat} {r : Row}
    {t : List Row} (hpre : i ∉ pre.map Prod.fst) (hpost : i ∉ post.map Prod.fst) :
    advance (pre ++ (i, r :: t) :: post) i = pre ++ (i, t) :: post := by
  simpa using advance_decomp (l := r :: t) hpre hpost

theorem kMergeAux_step {fuel : Nat} {st : List (Nat × List Row)} {e : HeapEntry}
    (hfm : findMin (heads st) = some e) :
    kMergeAux (fuel + 1) st = e.2.2 :: kMergeAux fuel (advance st e.2.1) := by
  simp only [kMergeAux, hfm]

theorem kMergeAux_perm : ∀ (fuel : Nat) (st : List (Nat × List Row)),
    (st.map Prod.fst).Nodup → totalSize st = fuel →
    List.Perm (kMergeAux fuel st) ((st.map Prod.snd).flatten) := by
  intro fuel
  induction fuel with
  | zero =>
    intro st _ hsize
    have hlen : ((st.map Prod.snd).flatten).length = 0 := by
      rw [List.length_flatten, List.map_map]
      exact hsize
    rw [List.eq_nil_of_length_eq_zero hlen]
    exact List.Perm.nil
  | succ fuel ih =>
    intro st hnd hsize
    cases hfm : findMin (heads st) with
    | none =>
      have hall := heads_eq_nil (findMin_eq_none hfm)
      have := totalSize_eq_zero hall
      omega
    | some e =>
      rcases findMin_decomp hfm with ⟨pre, post, t, hst, hkey⟩
      subst hst
      obtain ⟨hpre, hpost⟩ := nodup_decomp hnd
      have hadv := advance_decomp_cons (r := e.2.2) (t := t) hpre hpost
      have hsize' : totalSize (pre ++ (e.2.1, t) :: post) = fuel := by
        have h1 := totalSize_decomp pre post e.2.1 (e.2.2 :: t)
        have h2 := totalSize_decomp pre post e.2.1 t
        rw [h1, List.length_cons] at hsize
        omega
      have hnd' : ((pre ++ (e.2.1, t) :: post).map Prod.fst).Nodup := by
        simp only [List.map_append, List.map_cons] at hnd ⊢
        exact hnd
      rw [kMergeAux_step hfm, hadv]
      exact ((ih _ hnd' hsize').cons e.2.2).trans
        (flatten_decomp_perm pre post e.2.1 e.2.2 t).symm

theorem kMergeAux_sorted : ∀ (fuel : Nat) (st : List (Nat × List Row)),
    (st.map Prod.fst).Nodup → totalSize st = fuel →
    (∀ p ∈ st, List.Pairwise chunkLe p.2) →
    List.Pairwise chunkLe (kMergeAux fuel st) := by
  intro fuel
  induction fuel with
  | zero => intro st _ _ _; exact List.Pairwise.nil
  | succ fuel ih =>
    intro st hnd hsize hsorted
    cases hfm : findMin (heads st) with
    | none =>
      simp only [kMergeAux, hfm]
      exact List.Pairwise.nil
    | some e =>
      rcases findMin_decomp hfm with ⟨pre, post, t, hst, hkey⟩
      subst hst
      obtain ⟨hpre, hpost⟩ := nodup_decomp hnd
      have hadv := advance_decomp_cons (r := e.2.2) (t := t) hpre hpost
      have hsize' : totalSize (pre ++ (e.2.1, t) :: post) = fuel := by
        have h1 := totalSize_decomp pre post e.2.1 (e.2.2 :: t)
        have h2 := totalSize_decomp pre post e.2.1 t
        rw [h1, List.length_cons] at hsize
        omega
      have hnd' : ((pre ++ (e.2.1, t) :: post).map Prod.fst).Nodup := by
        simp only [List.map_append, List.map_cons] at hnd ⊢
        exact hnd
      have hsorted' : ∀ p ∈ pre ++ (e.2.1, t) :: post, List.Pairwise chunkLe p.2 := by
        intro p hp
        rcases List.mem_append.mp hp with hp' | hp'
        · exact hsorted p (List.mem_append.mpr (Or.inl hp'))
        · rcases List.mem_cons.mp hp' with rfl | hp''
          · have := hsorted (e.2.1, e.2.2 :: t)
              (List.mem_append.mpr (Or.inr (List.mem_cons_self _ _)))
            exact (List.pairwise_cons.mp this).2
          · exact hsorted p (List.mem_append.mpr (Or.inr (List.mem_cons_of_mem _ hp'')))
      have hbound : ∀ p ∈ pre ++ (e.2.1, e.2.2 :: t) :: post, ∀ x ∈ p.2,
          cfLt x.1 e.2.2.1 = false := by
        intro p hp x hxp
        cases p2 : p.2 with
        | nil => rw [p2] at hxp; exact absurd hxp (List.not_mem_nil x)
        | cons hq tq =>
          rw [p2] at hxp
          have hmemo : (p.1, hq :: tq) ∈ pre ++ (e.2.1, e.2.2 :: t) :: post := by
            rw [← p2]
            exact hp
          have hmin := findMin_min hfm _ (heads_mem_intro hmemo)
          rw [hkey] at hmin
          have hsortp := hsorted p hp
          rw [p2] at hsortp
          rcases List.mem_cons.mp hxp with rfl | hxtq
          · exact hmin
          · have hxq : cfLt x.1 hq.1 = false := List.rel_of_pairwise_cons hsortp hxtq
            exact charsLt_false_trans hxq hmin
      rw [kMergeAux_step hfm, hadv]
      refine List.pairwise_cons.mpr ⟨?_, ih _ hnd' hsize' hsorted'⟩
      intro x hx
      have hxmem : x ∈ ((pre ++ (e.2.1, t) :: post).map Prod.snd).flatten :=
        (kMergeAux_perm fuel _ hnd' hsize').mem_iff.mp hx
      rcases List.mem_flatten.mp hxmem with ⟨l, hl, hxl⟩
      rcases List.mem_map.mp hl with ⟨p, hp, rfl⟩
      show cfLt x.1 e.2.2.1 = false
      rcases List.mem_append.mp hp with hp' | hp'
      · exact hbound p (List.mem_append.mpr (Or.inl hp')) x hxl
      · rcases List.mem_cons.mp hp' with rfl | hp''
        · exact hbound (e.2.1, e.2.2 :: t)
            (List.mem_append.mpr (Or.inr (List.mem_cons_self _ _))) x
            (List.mem_cons_of_mem _ hxl)
        · exact hbound p (List.mem_append.mpr (Or.inr (List.mem_cons_of_mem _ hp''))) x hxl

theorem mergeSortedChunks_sorted (chunks : List (List Row))
    (h : ∀ c ∈ chunks, List.Pairwise chunkLe c) :
    List.Pairwise chunkLe (mergeSortedChunks chunks) := by
  unfold mergeSortedChunks
  refine kMergeAux_sorted _ _ ?_ rfl ?_
  · rw [List.enum_map_fst]; exact List.nodup_range _
  · rintro ⟨i, c⟩ hp
    obtain ⟨hlt, hx⟩ := List.mem_enum hp
    show List.Pairwise chunkLe c
    rw [hx]
    exact h _ (List.getElem_mem hlt)

theorem mergeSortedChunks_perm (chunks : List (List Row)) :
    List.Perm (mergeSortedChunks chunks) chunks.flatten := by
  unfold mergeSortedChunks
  have hnd : (chunks.enum.map Prod.fst).Nodup := by
    rw [List.enum_map_fst]; exact List.nodup_range _
  have := kMergeAux_perm (totalSize chunks.enum) chunks.enum hnd rfl
  rwa [List.enum_map_snd] at this

theorem chunksOfAux_flatten : ∀ (fuel n : Nat) (l : List Row), l.length ≤ fuel →
    (chunksOfAux fuel n l).flatten = l := by
  intro fuel
  induction fuel with
  | zero =>
    intro n l h
    cases l with
    | nil => rfl
    | cons x xs => simp [List.length_cons] at h
  | succ fuel ih =>
    intro n l h
    cases l with
    | nil => rfl
    | cons x xs =>
      show (List.take (max n 1) (x :: xs) :: chunksOfAux fuel n (List.drop (max n 1) (x :: xs))).flatten
        = x :: xs
      rw [List.flatten_cons, ih n (List.drop (max n 1) (x :: xs)) ?_, List.take_append_drop]
      have hm : 1 ≤ max n 1 := le_max_right n 1
      rw [List.length_drop]
      simp [List.length_cons] at h ⊢
      omega

theorem splitAndSortChunks_sorted (rows : List Row) (chunkSize : Nat) :
    ∀ c ∈ splitAndSortChunks rows chunkSize, List.Pairwise chunkLe c := by
  intro c hc
  rcases List.mem_map.mp hc with ⟨c', _, rfl⟩
  letI : IsTotal Row chunkLe := ⟨fun a b => by
    unfold chunkLe
    cases hx : cfLt b.1 a.1 with
    | false => exact Or.inl rfl
    | true => exact Or.inr (charsLt_asymm hx)⟩
  letI : IsTrans Row chunkLe := ⟨fun a b c hab hbc => charsLt_false_trans hbc hab⟩
  exact List.sorted_insertionSort chunkLe c'

theorem splitAndSortChunks_perm (rows : List Row) (chunkSize : Nat) :
    List.Perm (splitAndSortChunks rows chunkSize).flatten rows := by
  unfold splitAndSortChunks
  have hperm : ∀ l : List (List Row),
      List.Perm (l.map writeSortedChunk).flatten l.flatten := by
    intro l
    induction l with
    | nil => exact List.Perm.refl _
    | cons c cs ih =>
      rw [List.map_cons, List.flatten_cons, List.flatten_cons]
      exact (List.perm_insertionSort chunkLe c).append ih
  have hflat := chunksOfAux_flatten rows.length chunkSize rows (le_refl _)
  have := hperm (chunksOfAux rows.length chunkSize rows)
  rwa [hflat] at this

theorem sortCsvExternal_perm (rows : List Row) (chunkSize : Nat) :
    List.Perm (sortCsvExternal rows chunkSize) rows :=
  (mergeSortedChunks_perm _).trans (splitAndSortChunks_perm rows chunkSize)

/-! ### Claim C3: sortedness of the full-build output -/

/-- Claim C3 counterexample: the input [("Apple","x"),("apple","y")] yields an
output whose two consecutive records share the same case-folded key, so the
full-build output is not strictly ascending and case-folded keys repeat. -/
theorem c3_counterexample :
    sortCsvExternal [("Apple", "x"), ("apple", "y")] 1 = [("Apple", "x"), ("apple", "y")] ∧
    caseFold "Apple" = caseFold "apple" := by decide

/-- Claim C3 amended: for every input record stream and chunk size, the
Chunk-Sort + K-Way-Merge output is ascending (non-strictly) by case-folded key —
records whose keys collide after case folding are all emitted, in particular
adjacently; when the input's case-folded keys are pairwise distinct, the output
is strictly ascending by case-folded key. -/
theorem c3_full_build_sorted (rows : List Row) (chunkSize : Nat) :
    List.Pairwise (fun a b : Row => cfLt b.1 a.1 = false) (sortCsvExternal rows chunkSize) ∧
    (List.Pairwise (fun a b : Row => caseFold a.1 ≠ caseFold b.1) rows →
      List.Pairwise (fun a b : Row => cfLt a.1 b.1 = true) (sortCsvExternal rows chunkSize)) := by
  have hsorted : List.Pairwise chunkLe (sortCsvExternal rows chunkSize) :=
    mergeSortedChunks_sorted _ (splitAndSortChunks_sorted rows chunkSize)
  refine ⟨hsorted, ?_⟩
  intro hne
  have hperm := sortCsvExternal_perm rows chunkSize
  have hne' : List.Pairwise (fun a b : Row => caseFold a.1 ≠ caseFold b.1)
      (sortCsvExternal rows chunkSize) := by
    refine (List.Perm.pairwise_iff ?_ hperm).mpr hne
    intro x y hxy
    exact fun hh => hxy hh.symm
  have hand := hsorted.and hne'
  refine hand.imp ?_
  intro a b hab
  obtain ⟨hle, hnab⟩ := hab
  cases hx : cfLt a.1 b.1 with
  | true => rfl
  | false => exact absurd (cfLt_eq_of_false_false hx hle) hnab

/-- Witness for the amended C3 at a concrete input with distinct folded keys. -/
theorem c3_full_build_sorted_witness :
    List.Pairwise (fun a b : Row => cfLt b.1 a.1 = false)
      (sortCsvExternal [("banana", "y"), ("Apple", "x")] 1) ∧
    List.Pairwise (fun a b : Row => cfLt a.1 b.1 = true)
      (sortCsvExternal [("banana", "y"), ("Apple", "x")] 1) :=
  ⟨(c3_full_build_sorted [("banana", "y"), ("Apple", "x")] 1).1,
   (c3_full_build_sorted [("banana", "y"), ("Apple", "x")] 1).2 (by decide)⟩

/-! ### Claim C1: the case-fold tie-break of the k-way merge -/

/-- Claim C1 counterexample: for chunk seq 0 = [("Apple","x")] and chunk seq 1 =
[("apple","y")], the merged output keeps BOTH records — two records whose
case-folded key is "apple" — rather than exactly one record with value "y". -/
theorem c1_counterexample :
    mergeSortedChunks [[("Apple", "x")], [("apple", "y")]] =
      [("Apple", "x"), ("apple", "y")] ∧
    ((mergeSortedChunks [[("Apple", "x")], [("apple", "y")]]).filter
      (fun r => caseFold r.1 == "apple")).length = 2 := by decide

/-- Claim C1 amended: when two chunk head records have an identical case-folded
key, the k-way merge pops the record from the chunk with the LOWER sequence id
first, and no record is dropped: both records appear in the output (the chunk-1
record second). For the scenario the output is [("Apple","x"),("apple","y")] and
contains two records with case-folded key "apple". -/
theorem c1_tie_both_emitted (r0 r1 : Row) (h : caseFold r0.1 = caseFold r1.1) :
    mergeSortedChunks [[r0], [r1]] = [r0, r1] ∧
    ((mergeSortedChunks [[r0], [r1]]).filter
      (fun r => caseFold r.1 == caseFold r0.1)).length = 2 := by
  have hnot : ¬ heapLt (caseFold r1.1, 1, r1) (caseFold r0.1, 0, r0) := by
    intro hlt
    rcases hlt with hlt | ⟨heq, hidx⟩
    · rw [h, charsLt_irrefl] at hlt
      exact Bool.false_ne_true hlt
    · simp at hidx
  have h1 : findMin (heads [(0, [r0]), (1, [r1])]) = some (caseFold r0.1, 0, r0) := by
    show findMin [(caseFold r0.1, 0, r0), (caseFold r1.1, 1, r1)] = _
    simp only [findMin]
    rw [if_neg hnot]
  have hme : mergeSortedChunks [[r0], [r1]] = [r0, r1] := by
    show kMergeAux 2 [(0, [r0]), (1, [r1])] = [r0, r1]
    rw [kMergeAux_step h1]
    rfl
  refine ⟨hme, ?_⟩
  rw [hme]
  simp [List.filter, h]

/-- Witness for the amended C1 at the scenario chunks. -/
theorem c1_tie_both_emitted_witness :
    mergeSortedChunks [[("Apple", "x")], [("apple", "y")]] =
      [("Apple", "x"), ("apple", "y")] ∧
    ((mergeSortedChunks [[("Apple", "x")], [("apple", "y")]]).filter
      (fun r => caseFold r.1 == caseFold "Apple")).length = 2 :=
  c1_tie_both_emitted ("Apple", "x") ("apple", "y") (by decide)

/-! ### Strict sortedness of the `update_wikidict` output -/

theorem updWAux_mem : ∀ (fuel : Nat) (b d : List Row) (x : Row),
    x ∈ (updWAux fuel b d).1 → x ∈ b ∨ x ∈ d := by
  intro fuel
  induction fuel with
  | zero => intro b d x hx; exact absurd hx (List.not_mem_nil x)
  | succ fuel ih =>
    intro b d x hx
    cases b with
    | nil =>
      cases d with
      | nil => exact absurd hx (List.not_mem_nil x)
      | cons dd ds =>
        simp only [updWAux] at hx
        rcases List.mem_cons.mp hx with rfl | hx'
        · exact Or.inr (List.mem_cons_self _ _)
        · rcases ih [] ds x hx' with h | h
          · exact absurd h (List.not_mem_nil x)
          · exact Or.inr (List.mem_cons_of_mem _ h)
    | cons bb bs =>
      cases d with
      | nil =>
        simp only [updWAux] at hx
        rcases List.mem_cons.mp hx with rfl | hx'
        · exact Or.inl (List.mem_cons_self _ _)
        · rcases ih bs [] x hx' with h | h
          · exact Or.inl (List.mem_cons_of_mem _ h)
          · exact absurd h (List.not_mem_nil x)
      | cons dd ds =>
        simp only [updWAux] at hx
        by_cases h1 : cfLt bb.1 dd.1 = true
        · rw [if_pos h1] at hx
          rcases List.mem_cons.mp hx with rfl | hx'
          · exact Or.inl (List.mem_cons_self _ _)
          · rcases ih bs (dd :: ds) x hx' with h | h
            · exact Or.inl (List.mem_cons_of_mem _ h)
            · exact Or.inr h
        · rw [if_neg h1] at hx
          by_cases h2 : cfLt dd.1 bb.1 = true
          · rw [if_pos h2] at hx
            rcases List.mem_cons.mp hx with rfl | hx'
            · exact Or.inr (List.mem_cons_self _ _)
            · rcases ih (bb :: bs) ds x hx' with h | h
              · exact Or.inl h
              · exact Or.inr (List.mem_cons_of_mem _ h)
          · rw [if_neg h2] at hx
            rcases List.mem_cons.mp hx with rfl | hx'
            · exact Or.inr (List.mem_cons_self _ _)
            · rcases ih bs ds x hx' with h | h
              · exact Or.inl (List.mem_cons_of_mem _ h)
              · exact Or.inr (List.mem_cons_of_mem _ h)

theorem updWAux_sorted : ∀ (fuel : Nat) (b d : List Row),
    List.Pairwise (fun a b : Row => cfLt a.1 b.1 = true) b →
    List.Pairwise (fun a b : Row => cfLt a.1 b.1 = true) d →
    List.Pairwise (fun a b : Row => cfLt a.1 b.1 = true) (updWAux fuel b d).1 := by
  intro fuel
  induction fuel with
  | zero => intro b d _ _; exact List.Pairwise.nil
  | succ fuel ih =>
    intro b d hb hd
    cases b with
    | nil =>
      cases d with
      | nil => exact List.Pairwise.nil
      | cons dd ds =>
        show List.Pairwise _ (dd :: (updWAux fuel [] ds).1)
        refine List.pairwise_cons.mpr
          ⟨?_, ih [] ds List.Pairwise.nil (List.pairwise_cons.mp hd).2⟩
        intro x hx
        rcases updWAux_mem fuel [] ds x hx with h | h
        · exact absurd h (List.not_mem_nil x)
        · exact (List.pairwise_cons.mp hd).1 x h
    | cons bb bs =>
      cases d with
      | nil =>
        show List.Pairwise _ (bb :: (updWAux fuel bs []).1)
        refine List.pairwise_cons.mpr
          ⟨?_, ih bs [] (List.pairwise_cons.mp hb).2 List.Pairwise.nil⟩
        intro x hx
        rcases updWAux_mem fuel bs [] x hx with h | h
        · exact (List.pairwise_cons.mp hb).1 x h
        · exact absurd h (List.not_mem_nil x)
      | cons dd ds =>
        by_cases h1 : cfLt bb.1 dd.1 = true
        · have he : (updWAux (fuel + 1) (bb :: bs) (dd :: ds)).1 =
              bb :: (updWAux fuel bs (dd :: ds)).1 := by
            simp only [updWAux]
            rw [if_pos h1]
          rw [he]
          refine List.pairwise_cons.mpr
            ⟨?_, ih bs (dd :: ds) (List.pairwise_cons.mp hb).2 hd⟩
          intro x hx
          rcases updWAux_mem fuel bs (dd :: ds) x hx with h | h
          · exact (List.pairwise_cons.mp hb).1 x h
          · rcases List.mem_cons.mp h with rfl | h'
            · exact h1
            · exact charsLt_trans h1 ((List.pairwise_cons.mp hd).1 x h')
        · by_cases h2 : cfLt dd.1 bb.1 = true
          · have he : (updWAux (fuel + 1) (bb :: bs) (dd :: ds)).1 =
                dd :: (updWAux fuel (bb :: bs) ds).1 := by
              simp only [updWAux]
              rw [if_neg h1, if_pos h2]
            rw [he]
            refine List.pairwise_cons.mpr
              ⟨?_, ih (bb :: bs) ds hb (List.pairwise_cons.mp hd).2⟩
            intro x hx
            rcases updWAux_mem fuel (bb :: bs) ds x hx with h | h
            · rcases List.mem_cons.mp h with rfl | h'
              · exact h2
              · exact charsLt_trans h2 ((List.pairwise_cons.mp hb).1 x h')
            · exact (List.pairwise_cons.mp hd).1 x h
          · have h1' : cfLt bb.1 dd.1 = false := by
              cases hy : cfLt bb.1 dd.1 with
              | false => rfl
              | true => exact absurd hy h1
            have h2' : cfLt dd.1 bb.1 = false := by
              cases hy : cfLt dd.1 bb.1 with
              | false => rfl
              | true => exact absurd hy h2
            have hcf : caseFold bb.1 = caseFold dd.1 := cfLt_eq_of_false_false h1' h2'
            have he : (updWAux (fuel + 1) (bb :: bs) (dd :: ds)).1 =
                dd :: (updWAux fuel bs ds).1 := by
              simp only [updWAux]
              rw [if_neg h1, if_neg h2]
            rw [he]
            refine List.pairwise_cons.mpr
              ⟨?_, ih bs ds (List.pairwise_cons.mp hb).2 (List.pairwise_cons.mp hd).2⟩
            intro x hx
            rcases updWAux_mem fuel bs ds x hx with h | h
            · show charsLt (caseFold dd.1).data (caseFold x.1).data = true
              rw [← hcf]
              exact (List.pairwise_cons.mp hb).1 x h
            · exact (List.pairwise_cons.mp hd).1 x h

/-! ### The in-lockstep index: dict build equals the plain offset table -/

theorem upsert_of_not_mem (k : String) (v : Nat × Nat) :
    ∀ acc : List (String × Nat × Nat), (∀ e ∈ acc, e.1 ≠ k) →
      upsert k v acc = acc ++ [(k, v)] := by
  intro acc
  induction acc with
  | nil => intro _; rfl
  | cons e rest ih =>
    intro h
    show (if e.1 = k then (k, v) :: rest else e :: upsert k v rest) = _
    rw [if_neg (h e (List.mem_cons_self _ _)), ih fun x hx => h x (List.mem_cons_of_mem _ hx)]
    rfl

theorem buildIndexAux_eq_plainIndex :
    ∀ (rows : List Row) (pos : Nat) (acc : List (String × Nat × Nat)),
      List.Pairwise (fun a b : Row => a.1 ≠ b.1) rows →
      (∀ r ∈ rows, ∀ e ∈ acc, e.1 ≠ r.1) →
      buildIndexAux rows pos acc = acc ++ plainIndex rows pos := by
  intro rows
  induction rows with
  | nil =>
    intro pos acc _ _
    show acc = acc ++ []
    rw [List.append_nil]
  | cons r rest ih =>
    intro pos acc hnd hacc
    show buildIndexAux rest (pos + rowLen r) (upsert r.1 (pos, rowLen r) acc) = _
    rw [upsert_of_not_mem r.1 (pos, rowLen r) acc
      (fun e he => hacc r (List.mem_cons_self _ _) e he)]
    rw [ih (pos + rowLen r) (acc ++ [(r.1, (pos, rowLen r))])
      (List.pairwise_cons.mp hnd).2 ?_]
    · show acc ++ [(r.1, (pos, rowLen r))] ++ plainIndex rest (pos + rowLen r) =
        acc ++ (r.1, (pos, rowLen r)) :: plainIndex rest (pos + rowLen r)
      rw [List.append_assoc]
      rfl
    · intro x hx e he
      rcases List.mem_append.mp he with he' | he'
      · exact hacc x (List.mem_cons_of_mem _ hx) e he'
      · rcases List.mem_singleton.mp he' with rfl
        exact fun hh => (List.pairwise_cons.mp hnd).1 x hx hh

theorem plainIndex_length : ∀ (rows : List Row) (pos : Nat),
    (plainIndex rows pos).length = rows.length := by
  intro rows
  induction rows with
  | nil => intro pos; rfl
  | cons r rest ih =>
    intro pos
    show (plainIndex rest (pos + rowLen r)).length + 1 = rest.length + 1
    rw [ih]

theorem plainIndex_map_fst : ∀ (rows : List Row) (pos : Nat),
    (plainIndex rows pos).map Prod.fst = rows.map Prod.fst := by
  intro rows
  induction rows with
  | nil => intro pos; rfl
  | cons r rest ih =>
    intro pos
    show r.1 :: (plainIndex rest (pos + rowLen r)).map Prod.fst = r.1 :: rest.map Prod.fst
    rw [ih]

theorem plainIndex_lower_bound : ∀ (rows : List Row) (pos : Nat),
    ∀ e ∈ plainIndex rows pos, pos ≤ e.2.1 := by
  intro rows
  induction rows with
  | nil => intro pos e he; exact absurd he (List.not_mem_nil e)
  | cons r rest ih =>
    intro pos e he
    rcases List.mem_cons.mp he with rfl | he'
    · exact le_refl pos
    · exact le_trans (Nat.le_add_right pos (rowLen r)) (ih (pos + rowLen r) e he')

theorem plainIndex_disjoint : ∀ (rows : List Row) (pos : Nat),
    List.Pairwise (fun e1 e2 : String × Nat × Nat => e1.2.1 + e1.2.2 ≤ e2.2.1)
      (plainIndex rows pos) := by
  intro rows
  induction rows with
  | nil => intro pos; exact List.Pairwise.nil
  | cons r rest ih =>
    intro pos
    refine List.pairwise_cons.mpr ⟨?_, ih (pos + rowLen r)⟩
    intro e he
    exact plainIndex_lower_bound rest (pos + rowLen r) e he

theorem plainIndex_decode : ∀ (rows : List Row) (pre : List Char),
    ∀ e ∈ plainIndex rows pre.length,
      ∃ r ∈ rows, e.1 = r.1 ∧ e.2.2 = rowLen r ∧
        rangedRead (pre ++ (rows.map encodeRow).flatten) e.2.1 e.2.2 = encodeRow r := by
  intro rows
  induction rows with
  | nil => intro pre e he; exact absurd he (List.not_mem_nil e)
  | cons r rest ih =>
    intro pre e he
    rcases List.mem_cons.mp he with rfl | he'
    · refine ⟨r, List.mem_cons_self _ _, rfl, rfl, ?_⟩
      show ((pre ++ (encodeRow r :: rest.map encodeRow).flatten).drop pre.length).take
        (rowLen r) = encodeRow r
      rw [List.flatten_cons, List.drop_left]
      show List.take (encodeRow r).length (encodeRow r ++ (rest.map encodeRow).flatten)
        = encodeRow r
      rw [List.take_left]
    · have hlen : (pre ++ encodeRow r).length = pre.length + rowLen r := by
        rw [List.length_append]
        rfl
      have he2 : e ∈ plainIndex rest (pre ++ encodeRow r).length := by
        rw [hlen]
        exact he'
      rcases ih (pre ++ encodeRow r) e he2 with ⟨r', hr', he1, he22, hread⟩
      refine ⟨r', List.mem_cons_of_mem _ hr', he1, he22, ?_⟩
      rw [List.map_cons, List.flatten_cons, ← List.append_assoc]
      exact hread

/-! ### CSV round-trip: decoding an encoded row yields the record back -/

theorem takeWhile_plain_append : ∀ (cs : List Char) (d : Char) (rest : List Char),
    (∀ c ∈ cs, isPlainChar c = true) → isPlainChar d = false →
    (cs ++ d :: rest).takeWhile isPlainChar = cs ∧
    (cs ++ d :: rest).dropWhile isPlainChar = d :: rest := by
  intro cs
  induction cs with
  | nil =>
    intro d rest _ hd
    constructor
    · show List.takeWhile isPlainChar (d :: rest) = []
      rw [List.takeWhile_cons, hd]
      rfl
    · show List.dropWhile isPlainChar (d :: rest) = d :: rest
      rw [List.dropWhile_cons, hd]
      rfl
  | cons c cs' ih =>
    intro d rest hall hd
    have hc : isPlainChar c = true := hall c (List.mem_cons_self _ _)
    have hrest := ih d rest (fun x hx => hall x (List.mem_cons_of_mem _ hx)) hd
    constructor
    · show List.takeWhile isPlainChar (c :: (cs' ++ d :: rest)) = c :: cs'
      rw [List.takeWhile_cons, hc]
      simp only [if_true]
      rw [hrest.1]
    · show List.dropWhile isPlainChar (c :: (cs' ++ d :: rest)) = d :: rest
      rw [List.dropWhile_cons, hc]
      simp only [if_true]
      rw [hrest.2]

theorem needsQuote_false_plain {cs : List Char} (h : needsQuote cs = false) :
    (∀ c ∈ cs, isPlainChar c = true) ∧ ∀ c ∈ cs, c ≠ '\"' := by
  have h' : ∀ c ∈ cs, (c == ',' || c == '\"' || c == '\r' || c == '\n') = false := by
    intro c hc
    unfold needsQuote at h
    rw [List.any_eq_false] at h
    have hnc := h c hc
    cases hx : (c == ',' || c == '\"' || c == '\r' || c == '\n') with
    | false => rfl
    | true => exact absurd hx hnc
  constructor
  · intro c hc
    have hcf := h' c hc
    simp only [Bool.or_eq_false_iff, beq_eq_false_iff_ne, ne_eq] at hcf
    unfold isPlainChar
    simp only [Bool.not_eq_true', Bool.or_eq_false_iff, beq_eq_false_iff_ne, ne_eq]
    exact ⟨⟨hcf.1.1.1, hcf.1.2⟩, hcf.2⟩
  · intro c hc
    have hcf := h' c hc
    simp only [Bool.or_eq_false_iff, beq_eq_false_iff_ne, ne_eq] at hcf
    exact hcf.1.1.2

theorem parseQuoted_cons_ne (c : Char) (l : List Char) (hc : ¬c = '\"') :
    parseQuoted (c :: l) = (parseQuoted l).map fun p => (c :: p.1, p.2) := by
  cases l with
  | nil =>
    show (if c = '\"' then some ([], []) else (parseQuoted []).map fun p => (c :: p.1, p.2)) = _
    rw [if_neg hc]
  | cons c2 l2 =>
    show (if c = '\"' then
        if c2 = '\"' then (parseQuoted l2).map fun p => ('\"' :: p.1, p.2)
        else some ([], c2 :: l2)
      else (parseQuoted (c2 :: l2)).map fun p => (c :: p.1, p.2)) = _
    rw [if_neg hc]

theorem parseQuoted_escape : ∀ (s rest : List Char), rest.head? ≠ some '\"' →
    parseQuoted (escapeQuotes s ++ '\"' :: rest) = some (s, rest) := by
  intro s
  induction s with
  | nil =>
    intro rest h
    show parseQuoted ('\"' :: rest) = some ([], rest)
    cases rest with
    | nil => rfl
    | cons d rest' =>
      have hd : ¬d = '\"' := fun hh => h (by rw [hh]; rfl)
      show (if d = '\"' then (parseQuoted rest').map fun p => ('\"' :: p.1, p.2)
        else some ([], d :: rest')) = some ([], d :: rest')
      rw [if_neg hd]
  | cons c s' ih =>
    intro rest h
    by_cases hc : c = '\"'
    · subst hc
      show (parseQuoted (escapeQuotes s' ++ '\"' :: rest)).map
          (fun p => ('\"' :: p.1, p.2)) = some ('\"' :: s', rest)
      rw [ih rest h]
      rfl
    · have hesc : escapeQuotes (c :: s') = c :: escapeQuotes s' := by
        show (if c = '\"' then '\"' :: '\"' :: escapeQuotes s'
          else c :: escapeQuotes s') = _
        rw [if_neg hc]
      rw [hesc, List.cons_append, parseQuoted_cons_ne c _ hc, ih rest h]
      rfl

theorem parseField_encodeField (s : List Char) (d : Char) (rest : List Char)
    (hd : isPlainChar d = false) (hdq : d ≠ '\"') :
    parseField (encodeField s ++ d :: rest) = some (s, d :: rest) := by
  by_cases hq : needsQuote s = true
  · have henc : encodeField s = '\"' :: (escapeQuotes s ++ ['\"']) := by
      unfold encodeField
      rw [if_pos hq]
    rw [henc]
    show parseField ('\"' :: ((escapeQuotes s ++ ['\"']) ++ d :: rest)) = _
    unfold parseField
    show parseQuoted ((escapeQuotes s ++ ['\"']) ++ d :: rest) = some (s, d :: rest)
    rw [List.append_assoc]
    exact parseQuoted_escape s (d :: rest) fun hh => hdq (Option.some.inj hh)
  · have henc : encodeField s = s := by
      unfold encodeField
      rw [if_neg hq]
    rw [henc]
    have hq' : needsQuote s = false := by
      cases hx : needsQuote s with
      | false => rfl
      | true => exact absurd hx hq
    obtain ⟨hplain, hnq⟩ := needsQuote_false_plain hq'
    have hhead : (s ++ d :: rest).head? ≠ some '\"' := by
      cases s with
      | nil =>
        show (d :: rest).head? ≠ some '\"'
        exact fun hh => hdq (Option.some.inj hh)
      | cons c cs' =>
        show (c :: (cs' ++ d :: rest)).head? ≠ some '\"'
        exact fun hh => hnq c (List.mem_cons_self _ _) (Option.some.inj hh)
    unfold parseField
    rw [if_neg hhead, (takeWhile_plain_append s d rest hplain hd).1,
      (takeWhile_plain_append s d rest hplain hd).2]

theorem decodeRow_encodeRow (r : Row) : decodeRow (encodeRow r) = some r := by
  have h1 := parseField_encodeField r.1.data ',' (encodeField r.2.data ++ ['\r', '\n'])
    (by decide) (by decide)
  have h2 := parseField_encodeField r.2.data '\r' ['\n'] (by decide) (by decide)
  unfold decodeRow encodeRow
  rw [h1]
  dsimp only
  rw [if_pos rfl, h2]
  dsimp only
  rw [if_pos rfl]

/-! ### Claim C6: index completeness of the emitted table -/

/-- The incremental half of claim C6: the index `update_wikidict` builds in
lockstep with the merged table, from valid inputs (base and delta each strictly
ascending by case-folded key, per §4.4). -/
theorem updateWikidict_index_complete (base delta : List Row)
    (hb : List.Pairwise (fun a b : Row => cfLt a.1 b.1 = true) base)
    (hd : List.Pairwise (fun a b : Row => cfLt a.1 b.1 = true) delta) :
    (updateWikidict base delta).2.1.length = (updateWikidict base delta).1.length ∧
    (updateWikidict base delta).2.1.map Prod.fst =
      (updateWikidict base delta).1.map Prod.fst ∧
    ((updateWikidict base delta).2.1.map Prod.fst).Nodup ∧
    List.Pairwise (fun e1 e2 : String × Nat × Nat => e1.2.1 + e1.2.2 ≤ e2.2.1)
      (updateWikidict base delta).2.1 ∧
    ∀ e ∈ (updateWikidict base delta).2.1, ∃ r ∈ (updateWikidict base delta).1,
      e.1 = r.1 ∧ e.2.2 = rowLen r ∧
      decodeRow (rangedRead (tableChars (updateWikidict base delta).1) e.2.1 e.2.2) =
        some r := by
  have hsorted := updWAux_sorted (base.length + delta.length) base delta hb hd
  have htitles : List.Pairwise (fun a b : Row => a.1 ≠ b.1)
      (updateWikidictRows base delta).1 := by
    refine hsorted.imp ?_
    intro a b hab heq
    have hfalse : cfLt a.1 b.1 = false := by
      show charsLt (caseFold a.1).data (caseFold b.1).data = false
      rw [heq]
      exact charsLt_irrefl _
    rw [hfalse] at hab
    exact Bool.false_ne_true hab
  have hidx : buildIndex (updateWikidictRows base delta).1 =
      plainIndex (updateWikidictRows base delta).1 headerChars.length :=
    buildIndexAux_eq_plainIndex _ _ [] htitles
      (fun r _ e he => absurd he (List.not_mem_nil e))
  refine ⟨?_, ?_, ?_, ?_, ?_⟩
  · show (buildIndex (updateWikidictRows base delta).1).length = _
    rw [hidx, plainIndex_length]
    rfl
  · show (buildIndex (updateWikidictRows base delta).1).map Prod.fst = _
    rw [hidx, plainIndex_map_fst]
    rfl
  · show ((buildIndex (updateWikidictRows base delta).1).map Prod.fst).Nodup
    rw [hidx, plainIndex_map_fst]
    exact List.Pairwise.map _ (fun a b hab => hab) htitles
  · show List.Pairwise _ (buildIndex (updateWikidictRows base delta).1)
    rw [hidx]
    exact plainIndex_disjoint _ _
  · intro e he
    have he' : e ∈ plainIndex (updateWikidictRows base delta).1 headerChars.length :=
      hidx ▸ he
    rcases plainIndex_decode (updateWikidictRows base delta).1 headerChars e he'
      with ⟨r, hr, h1, h2, h3⟩
    refine ⟨r, hr, h1, h2, ?_⟩
    show decodeRow (rangedRead
      (headerChars ++ ((updateWikidictRows base delta).1.map encodeRow).flatten)
      e.2.1 e.2.2) = some r
    rw [h3]
    exact decodeRow_encodeRow r



/-! ### `create_index` recovers the in-lockstep index on single-line tables -/

theorem takeLine_append : ∀ (body rest : List Char), '\n' ∉ body →
    takeLine (body ++ '\n' :: rest) = (body ++ ['\n'], rest) := by
  intro body
  induction body with
  | nil => intro rest _; rfl
  | cons c body' ih =>
    intro rest h
    have hc : ¬c = '\n' := fun hh => h (hh ▸ List.mem_cons_self c body')
    show (if c = '\n' then ([c], body' ++ '\n' :: rest)
      else (c :: (takeLine (body' ++ '\n' :: rest)).1, (takeLine (body' ++ '\n' :: rest)).2)) = _
    rw [if_neg hc, ih rest fun hm => h (List.mem_cons_of_mem c hm)]
    rfl

theorem splitLinesAux_step (fuel : Nat) (body rest : List Char) (h : '\n' ∉ body) :
    splitLinesAux (fuel + 1) (body ++ '\n' :: rest) =
      (body ++ ['\n']) :: splitLinesAux fuel rest := by
  cases body with
  | nil => rfl
  | cons c body' =>
    show (takeLine (c :: (body' ++ '\n' :: rest))).1 ::
      splitLinesAux fuel (takeLine (c :: (body' ++ '\n' :: rest))).2 = _
    rw [show takeLine (c :: (body' ++ '\n' :: rest)) = ((c :: body') ++ ['\n'], rest) from
      takeLine_append (c :: body') rest h]

theorem splitLinesAux_flatten : ∀ (segs : List (List Char)) (fuel : Nat),
    (∀ l ∈ segs, ∃ body, l = body ++ ['\n'] ∧ '\n' ∉ body) →
    segs.flatten.length ≤ fuel →
    splitLinesAux fuel segs.flatten = segs := by
  intro segs
  induction segs with
  | nil =>
    intro fuel _ _
    cases fuel with
    | zero => rfl
    | succ f => rfl
  | cons l rest ih =>
    intro fuel hseg hlen
    rcases hseg l (List.mem_cons_self _ _) with ⟨body, rfl, hnb⟩
    have hflat : ((body ++ ['\n']) :: rest).flatten = body ++ '\n' :: rest.flatten := by
      rw [List.flatten_cons, List.append_assoc]
      rfl
    rw [hflat] at hlen ⊢
    cases fuel with
    | zero =>
      rw [List.length_append, List.length_cons] at hlen
      omega
    | succ f =>
      have hlen' : rest.flatten.length ≤ f := by
        rw [List.length_append, List.length_cons] at hlen
        omega
      rw [splitLinesAux_step f body rest.flatten hnb,
        ih f (fun x hx => hseg x (List.mem_cons_of_mem _ hx)) hlen']

theorem mem_escapeQuotes {c : Char} : ∀ {cs : List Char},
    c ∈ escapeQuotes cs → c ∈ cs ∨ c = '\"' := by
  intro cs
  induction cs with
  | nil => intro h; exact absurd h (List.not_mem_nil c)
  | cons a as ih =>
    intro h
    by_cases ha : a = '\"'
    · subst ha
      have h' : c ∈ '\"' :: '\"' :: escapeQuotes as := h
      rcases List.mem_cons.mp h' with rfl | h2
      · exact Or.inr rfl
      · rcases List.mem_cons.mp h2 with rfl | h3
        · exact Or.inr rfl
        · rcases ih h3 with hm | he
          · exact Or.inl (List.mem_cons_of_mem _ hm)
          · exact Or.inr he
    · have hesc : escapeQuotes (a :: as) = a :: escapeQuotes as := by
        show (if a = '\"' then '\"' :: '\"' :: escapeQuotes as else a :: escapeQuotes as) = _
        rw [if_neg ha]
      rw [hesc] at h
      rcases List.mem_cons.mp h with rfl | h2
      · exact Or.inl (List.mem_cons_self _ _)
      · rcases ih h2 with hm | he
        · exact Or.inl (List.mem_cons_of_mem _ hm)
        · exact Or.inr he

theorem newline_not_mem_encodeField {cs : List Char} (h : '\n' ∉ cs) :
    '\n' ∉ encodeField cs := by
  unfold encodeField
  by_cases hq : needsQuote cs = true
  · rw [if_pos hq]
    intro hm
    rcases List.mem_cons.mp hm with he | hm2
    · exact absurd he (by decide)
    · rcases List.mem_append.mp hm2 with hm3 | hm4
      · rcases mem_escapeQuotes hm3 with hm5 | he
        · exact h hm5
        · exact absurd he (by decide)
      · exact absurd (List.mem_singleton.mp hm4) (by decide)
  · rw [if_neg hq]
    exact h

theorem encodeRow_line (r : Row) (h1 : '\n' ∉ r.1.data) (h2 : '\n' ∉ r.2.data) :
    ∃ body, encodeRow r = body ++ ['\n'] ∧ '\n' ∉ body := by
  refine ⟨encodeField r.1.data ++ ',' :: (encodeField r.2.data ++ ['\r']), ?_, ?_⟩
  · show encodeField r.1.data ++ ',' :: (encodeField r.2.data ++ ['\r', '\n']) = _
    simp [List.append_assoc]
  · intro hm
    rcases List.mem_append.mp hm with hm1 | hm2
    · exact newline_not_mem_encodeField h1 hm1
    · rcases List.mem_cons.mp hm2 with he | hm3
      · exact absurd he (by decide)
      · rcases List.mem_append.mp hm3 with hm4 | hm5
        · exact newline_not_mem_encodeField h2 hm4
        · exact absurd (List.mem_singleton.mp hm5) (by decide)

theorem splitLines_tableChars (rows : List Row)
    (hnl : ∀ r ∈ rows, '\n' ∉ r.1.data ∧ '\n' ∉ r.2.data) :
    splitLines (tableChars rows) = headerChars :: rows.map encodeRow := by
  have hsegs : ∀ l ∈ headerChars :: rows.map encodeRow,
      ∃ body, l = body ++ ['\n'] ∧ '\n' ∉ body := by
    intro l hl
    rcases List.mem_cons.mp hl with rfl | hl2
    · exact ⟨("title,value\r" : String).data, by decide, by decide⟩
    · rcases List.mem_map.mp hl2 with ⟨r, hr, rfl⟩
      exact encodeRow_line r (hnl r hr).1 (hnl r hr).2
  have hflat : (headerChars :: rows.map encodeRow).flatten = tableChars rows := by
    rw [List.flatten_cons]
    rfl
  unfold splitLines
  rw [← hflat]
  exact splitLinesAux_flatten _ _ hsegs (le_refl _)

theorem createIndexAux_encoded : ∀ (rows : List Row) (pos : Nat)
    (acc : List (String × Nat × Nat)),
    createIndexAux (rows.map encodeRow) pos acc = buildIndexAux rows pos acc := by
  intro rows
  induction rows with
  | nil => intro pos acc; rfl
  | cons r rest ih =>
    intro pos acc
    rw [List.map_cons]
    simp only [createIndexAux]
    rw [decodeRow_encodeRow r]
    exact ih _ _

theorem createIndex_eq_buildIndex {rows : List Row}
    (hnl : ∀ r ∈ rows, '\n' ∉ r.1.data ∧ '\n' ∉ r.2.data) :
    createIndex (tableChars rows) = buildIndex rows := by
  unfold createIndex
  rw [splitLines_tableChars rows hnl]
  exact createIndexAux_encoded rows headerChars.length []

/-- The full-build half of claim C6: on a table artifact written from rows with
pairwise-distinct titles and no newline characters in their fields (the data the
full build generates), `create_index` produces exactly the in-lockstep index, and
it is complete: one entry per table key, cardinality equal, ranges disjoint and
exactly spanning, each decoding back to its record. -/
theorem createIndex_complete (rows : List Row)
    (hne : List.Pairwise (fun a b : Row => a.1 ≠ b.1) rows)
    (hnl : ∀ r ∈ rows, '\n' ∉ r.1.data ∧ '\n' ∉ r.2.data) :
    createIndex (tableChars rows) = buildIndex rows ∧
    (createIndex (tableChars rows)).length = rows.length ∧
    (createIndex (tableChars rows)).map Prod.fst = rows.map Prod.fst ∧
    ((createIndex (tableChars rows)).map Prod.fst).Nodup ∧
    List.Pairwise (fun e1 e2 : String × Nat × Nat => e1.2.1 + e1.2.2 ≤ e2.2.1)
      (createIndex (tableChars rows)) ∧
    ∀ e ∈ createIndex (tableChars rows), ∃ r ∈ rows, e.1 = r.1 ∧ e.2.2 = rowLen r ∧
      decodeRow (rangedRead (tableChars rows) e.2.1 e.2.2) = some r := by
  have hci := createIndex_eq_buildIndex hnl
  have hbi : buildIndex rows = plainIndex rows headerChars.length :=
    buildIndexAux_eq_plainIndex rows headerChars.length [] hne
      (fun r _ e he => absurd he (List.not_mem_nil e))
  rw [hci, hbi]
  refine ⟨rfl, plainIndex_length _ _, plainIndex_map_fst _ _, ?_, plainIndex_disjoint _ _, ?_⟩
  · rw [plainIndex_map_fst]
    exact List.Pairwise.map _ (fun a b hab => hab) hne
  · intro e he
    rcases plainIndex_decode rows headerChars e he with ⟨r, hr, h1, h2, h3⟩
    refine ⟨r, hr, h1, h2, ?_⟩
    show decodeRow (rangedRead (headerChars ++ (rows.map encodeRow).flatten) e.2.1 e.2.2) =
      some r
    rw [h3]
    exact decodeRow_encodeRow r

/-- Claim C6: for every table emitted by a build, every key present in the table
has exactly one index entry (the index keys are exactly the table's keys, with no
duplicates), the number of index entries equals the number of table records, each
entry's (offset, length) range is non-overlapping with every other entry's range
and addresses exactly the encoded on-disk span of that key's record, and reading
`length` characters at `offset` from the table artifact decodes back to exactly
that record. First conjunct: the incremental build (`update_wikidict`, the
in-lockstep Index Builder), under §4.4's input preconditions (base and delta
strictly ascending by case-folded key). Second and third conjuncts: the full
build (`create_index` over the written table artifact), under the full build's
own data guarantees — titles pairwise distinct (enforced by `seen_titles`) and no
newline characters inside fields (the generator strips them) — stated for an
arbitrary emitted table and then for the table the `sort_csv_external` pipeline
writes; in both, `create_index` recovers exactly the in-lockstep index. -/
theorem c6_index_complete :
    (∀ base delta : List Row,
      List.Pairwise (fun a b : Row => cfLt a.1 b.1 = true) base →
      List.Pairwise (fun a b : Row => cfLt a.1 b.1 = true) delta →
      (updateWikidict base delta).2.1.length = (updateWikidict base delta).1.length ∧
      (updateWikidict base delta).2.1.map Prod.fst =
        (updateWikidict base delta).1.map Prod.fst ∧
      ((updateWikidict base delta).2.1.map Prod.fst).Nodup ∧
      List.Pairwise (fun e1 e2 : String × Nat × Nat => e1.2.1 + e1.2.2 ≤ e2.2.1)
        (updateWikidict base delta).2.1 ∧
      ∀ e ∈ (updateWikidict base delta).2.1, ∃ r ∈ (updateWikidict base delta).1,
        e.1 = r.1 ∧ e.2.2 = rowLen r ∧
        decodeRow (rangedRead (tableChars (updateWikidict base delta).1) e.2.1 e.2.2) =
          some r) ∧
    (∀ rows : List Row,
      List.Pairwise (fun a b : Row => a.1 ≠ b.1) rows →
      (∀ r ∈ rows, '\n' ∉ r.1.data ∧ '\n' ∉ r.2.data) →
      createIndex (tableChars rows) = buildIndex rows ∧
      (createIndex (tableChars rows)).length = rows.length ∧
      (createIndex (tableChars rows)).map Prod.fst = rows.map Prod.fst ∧
      ((createIndex (tableChars rows)).map Prod.fst).Nodup ∧
      List.Pairwise (fun e1 e2 : String × Nat × Nat => e1.2.1 + e1.2.2 ≤ e2.2.1)
        (createIndex (tableChars rows)) ∧
      ∀ e ∈ createIndex (tableChars rows), ∃ r ∈ rows, e.1 = r.1 ∧ e.2.2 = rowLen r ∧
        decodeRow (rangedRead (tableChars rows) e.2.1 e.2.2) = some r) ∧
    (∀ (input : List Row) (chunkSize : Nat),
      List.Pairwise (fun a b : Row => a.1 ≠ b.1) input →
      (∀ r ∈ input, '\n' ∉ r.1.data ∧ '\n' ∉ r.2.data) →
      createIndex (tableChars (sortCsvExternal input chunkSize)) =
        buildIndex (sortCsvExternal input chunkSize) ∧
      (createIndex (tableChars (sortCsvExternal input chunkSize))).length =
        (sortCsvExternal input chunkSize).length ∧
      (createIndex (tableChars (sortCsvExternal input chunkSize))).map Prod.fst =
        (sortCsvExternal input chunkSize).map Prod.fst ∧
      ((createIndex (tableChars (sortCsvExternal input chunkSize))).map Prod.fst).Nodup ∧
      List.Pairwise (fun e1 e2 : String × Nat × Nat => e1.2.1 + e1.2.2 ≤ e2.2.1)
        (createIndex (tableChars (sortCsvExternal input chunkSize))) ∧
      ∀ e ∈ createIndex (tableChars (sortCsvExternal input chunkSize)),
        ∃ r ∈ sortCsvExternal input chunkSize, e.1 = r.1 ∧ e.2.2 = rowLen r ∧
          decodeRow (rangedRead (tableChars (sortCsvExternal input chunkSize))
            e.2.1 e.2.2) = some r) := by
  refine ⟨updateWikidict_index_complete, createIndex_complete, ?_⟩
  intro input chunkSize hne hnl
  have hperm := sortCsvExternal_perm input chunkSize
  have hne' : List.Pairwise (fun a b : Row => a.1 ≠ b.1)
      (sortCsvExternal input chunkSize) :=
    (List.Perm.pairwise_iff (fun hxy hh => hxy hh.symm) hperm).mpr hne
  have hnl' : ∀ r ∈ sortCsvExternal input chunkSize, '\n' ∉ r.1.data ∧ '\n' ∉ r.2.data :=
    fun r hr => hnl r (hperm.mem_iff.mp hr)
  exact createIndex_complete (sortCsvExternal input chunkSize) hne' hnl'

/-- Witness for C6: concrete instantiations of all three parts. -/
theorem c6_index_complete_witness :
    (updateWikidict [("apple", "red"), ("banana", "yellow")]
        [("banana", "green"), ("cherry", "dark red")]).2.1.length =
      (updateWikidict [("apple", "red"), ("banana", "yellow")]
        [("banana", "green"), ("cherry", "dark red")]).1.length ∧
    ((updateWikidict [("apple", "red"), ("banana", "yellow")]
        [("banana", "green"), ("cherry", "dark red")]).2.1.map Prod.fst).Nodup ∧
    createIndex (tableChars [("apple", "red"), ("Banana", "yellow")]) =
      buildIndex [("apple", "red"), ("Banana", "yellow")] ∧
    createIndex (tableChars (sortCsvExternal [("banana", "y"), ("Apple", "x")] 1)) =
      buildIndex (sortCsvExternal [("banana", "y"), ("Apple", "x")] 1) :=
  ⟨(c6_index_complete.1 [("apple", "red"), ("banana", "yellow")]
      [("banana", "green"), ("cherry", "dark red")] (by decide) (by decide)).1,
   (c6_index_complete.1 [("apple", "red"), ("banana", "yellow")]
      [("banana", "green"), ("cherry", "dark red")] (by decide) (by decide)).2.2.1,
   (c6_index_complete.2.1 [("apple", "red"), ("Banana", "yellow")]
      (by decide) (by decide)).1,
   (c6_index_complete.2.2 [("banana", "y"), ("Apple", "x")] 1 (by decide) (by decide)).1⟩
